import Mathlib

/-!
# Verification of the GraphStore label-constrained BFS shortest-path engine

Shallow embedding of the C++ sources:
* `src/src/graph_store.hpp` / `src/src/graph_store.cpp` (GraphStore facade, BFS),
* `util/graph_util.hpp` (LabelledGraph, Path, Edge),
* `util/vertex_state.hpp` / `util/vertex_state.cpp` (the two TraversalState variants).

Machine integers (`std::uint64_t`) are modelled as `Nat`; the only place where
overflow can matter is the `distance_to_curr + 1` computation inside the BFS
relaxation, which is written with an explicit `% 2^64`.  The sentinel
`std::numeric_limits<std::uint64_t>::max()` is `INF = 2^64 - 1`.

`std::unordered_map` keyed by integers is modelled as an association list,
`std::unordered_set<std::uint64_t>` as a duplicate-free-by-construction list
used only through membership, and `std::vector` as `List`.  The C++ `while`
loop of the BFS and the recursive path reconstruction are modelled with fuel;
the fuel amounts are proved sufficient below.
-/

namespace GraphStoreVerif

abbrev VertexId := Nat
abbrev Label := String

/-- `2^64`, the modulus of `std::uint64_t` arithmetic. -/
def U64 : Nat := 2 ^ 64

/-- `std::numeric_limits<std::uint64_t>::max()`, used as the "infinite distance"
sentinel by both `VertexState` variants. -/
def INF : Nat := U64 - 1

/-- `graph_util::Path` (`util/graph_util.hpp`). -/
structure Path where
  length : Nat
  vertices : List VertexId
  deriving DecidableEq, Repr

/-- `graph_util::Edge` (`util/graph_util.hpp`). -/
structure Edge where
  source_vertex : VertexId
  destination_vertex : VertexId
  deriving DecidableEq, Repr

/-! ## Association-list model of `std::unordered_map<std::uint64_t, std::uint64_t>` -/

/-- First-match lookup in an association list (model of `map.find(k)`). -/
def alistFind : List (Nat × Nat) → Nat → Option Nat
  | [], _ => none
  | (k', v') :: rest, k => if k' = k then some v' else alistFind rest k

/-- `map[k] = v`: overwrite the first binding of `k`, or append a new one. -/
def alistSet : List (Nat × Nat) → Nat → Nat → List (Nat × Nat)
  | [], k, v => [(k, v)]
  | (k', v') :: rest, k, v =>
      if k' = k then (k, v) :: rest else (k', v') :: alistSet rest k v

/-! ## Model of `std::unordered_set<std::uint64_t>` (`graph_util::VertexSet`)

The set is only ever observed through membership (`count`), so a list with
idempotent insertion is a faithful model. -/

abbrev VSet := List VertexId

/-- `set.insert(v)`: a no-op when `v` is already present. -/
def VSet.insertV (s : VSet) (v : VertexId) : VSet :=
  if v ∈ s then s else s ++ [v]

/-- `set.erase(v)`. -/
def VSet.eraseV (s : VSet) (v : VertexId) : VSet :=
  s.filter (fun x => ¬ x = v)

/-! ## Association list for the label index `std::unordered_map<Label, VertexSet>` -/

def lmapFind : List (Label × VSet) → Label → Option VSet
  | [], _ => none
  | (k', v') :: rest, k => if k' = k then some v' else lmapFind rest k

/-- `map[label]` followed by `.insert(v)`: the C++ `operator[]` creates an
empty set when the label is absent. -/
def lmapInsertInto : List (Label × VSet) → Label → VertexId → List (Label × VSet)
  | [], k, v => [(k, VSet.insertV [] v)]
  | (k', s) :: rest, k, v =>
      if k' = k then (k, VSet.insertV s v) :: rest else (k', s) :: lmapInsertInto rest k v

/-- `find(label)` followed by `.erase(v)` on the found set; no entry is
created when the label is absent (the entry stays, possibly empty). -/
def lmapEraseFrom : List (Label × VSet) → Label → VertexId → List (Label × VSet)
  | [], _, _ => []
  | (k', s) :: rest, k, v =>
      if k' = k then (k, VSet.eraseV s v) :: rest else (k', s) :: lmapEraseFrom rest k v

/-- `graph_util::LabelledGraph` (`util/graph_util.hpp`). -/
structure LabelledGraph where
  neighbours : List (List VertexId)
  label_to_vertices : List (Label × VSet)
  deriving DecidableEq, Repr

/-- The vertex set a label currently indexes; `[]` when the label is absent. -/
def labelSet (g : LabelledGraph) (label : Label) : VSet :=
  (lmapFind g.label_to_vertices label).getD []

/-! ## The two `VertexState` variants (`util/vertex_state.hpp/.cpp`) -/

/-- `graph_util::OptimizedMemoryVertexState`: sparse, hash-map backed. -/
structure OptimizedMemoryVertexState where
  parent_ : List (Nat × Nat)
  distances_ : List (Nat × Nat)
  deriving DecidableEq, Repr

namespace OptimizedMemoryVertexState

def GetDistance (s : OptimizedMemoryVertexState) (v : VertexId) : Nat :=
  (alistFind s.distances_ v).getD INF

def SetDistance (s : OptimizedMemoryVertexState) (v : VertexId) (d : Nat) :
    OptimizedMemoryVertexState :=
  { s with distances_ := alistSet s.distances_ v d }

def GetParent (s : OptimizedMemoryVertexState) (v : VertexId) : Nat :=
  (alistFind s.parent_ v).getD INF

def SetParent (s : OptimizedMemoryVertexState) (v : VertexId) (p : Nat) :
    OptimizedMemoryVertexState :=
  { s with parent_ := alistSet s.parent_ v p }

def Reset (_s : OptimizedMemoryVertexState) : OptimizedMemoryVertexState :=
  ⟨[], []⟩

def ProcessVertexAddition (s : OptimizedMemoryVertexState) : OptimizedMemoryVertexState :=
  s

end OptimizedMemoryVertexState

/-- `graph_util::OptimizedPerformanceVertexState`: dense, array backed with an
affected-indices list.  Out-of-range `operator[]` access is undefined behaviour
in the C++; the model reads a default there (`INF` / `0`) and lets
`List.set` ignore out-of-range writes. -/
structure OptimizedPerformanceVertexState where
  parent_ : List Nat
  distances_ : List Nat
  affected_vertices_ : List VertexId
  deriving DecidableEq, Repr

namespace OptimizedPerformanceVertexState

def GetDistance (s : OptimizedPerformanceVertexState) (v : VertexId) : Nat :=
  s.distances_.getD v INF

def SetDistance (s : OptimizedPerformanceVertexState) (v : VertexId) (d : Nat) :
    OptimizedPerformanceVertexState :=
  { s with distances_ := s.distances_.set v d,
           affected_vertices_ := s.affected_vertices_ ++ [v] }

def GetParent (s : OptimizedPerformanceVertexState) (v : VertexId) : Nat :=
  s.parent_.getD v 0

/-- `SetParent` writes only `parent_`; unlike `SetDistance` it does not append
to the affected list (`vertex_state.cpp` lines 76-79). -/
def SetParent (s : OptimizedPerformanceVertexState) (v : VertexId) (p : Nat) :
    OptimizedPerformanceVertexState :=
  { s with parent_ := s.parent_.set v p }

/-- `Reset`: restore every affected entry to its default, clear the list. -/
def Reset (s : OptimizedPerformanceVertexState) : OptimizedPerformanceVertexState :=
  let rec go : List VertexId → List Nat → List Nat → List Nat × List Nat
    | [], par, dis => (par, dis)
    | v :: rest, par, dis => go rest (par.set v 0) (dis.set v INF)
  let (par, dis) := go s.affected_vertices_ s.parent_ s.distances_
  ⟨par, dis, []⟩

def ProcessVertexAddition (s : OptimizedPerformanceVertexState) :
    OptimizedPerformanceVertexState :=
  { s with parent_ := s.parent_ ++ [0], distances_ := s.distances_ ++ [INF] }

end OptimizedPerformanceVertexState

/-- The virtual-dispatch interface of `graph_util::VertexState`, over which
`GraphStore::ShortestPath` is written. -/
structure VSOps (σ : Type) where
  getDistance : σ → VertexId → Nat
  setDistance : σ → VertexId → Nat → σ
  getParent : σ → VertexId → Nat
  setParent : σ → VertexId → Nat → σ
  reset : σ → σ
  processVertexAddition : σ → σ

def memOps : VSOps OptimizedMemoryVertexState :=
  ⟨OptimizedMemoryVertexState.GetDistance, OptimizedMemoryVertexState.SetDistance,
   OptimizedMemoryVertexState.GetParent, OptimizedMemoryVertexState.SetParent,
   OptimizedMemoryVertexState.Reset, OptimizedMemoryVertexState.ProcessVertexAddition⟩

def perfOps : VSOps OptimizedPerformanceVertexState :=
  ⟨OptimizedPerformanceVertexState.GetDistance, OptimizedPerformanceVertexState.SetDistance,
   OptimizedPerformanceVertexState.GetParent, OptimizedPerformanceVertexState.SetParent,
   OptimizedPerformanceVertexState.Reset, OptimizedPerformanceVertexState.ProcessVertexAddition⟩

/-! ## `VertexState::FindPath` (`util/vertex_state.cpp`)

The C++ recursion `findPathRec` walks parent pointers from `dst` back to
`src`, pushing vertices on the way out; it terminates only under the caller's
precondition (a parent chain from `dst` ending at `src`).  The model bounds
the recursion with fuel; the caller supplies fuel that is proved sufficient
whenever the precondition holds. -/

def findPathVertices (getP : VertexId → VertexId) (src : VertexId) :
    Nat → VertexId → List VertexId
  | 0, curr => [curr]
  | fuel + 1, curr =>
      if curr = src then [curr]
      else findPathVertices getP src fuel (getP curr) ++ [curr]

def VSOps.FindPath {σ : Type} (ops : VSOps σ) (st : σ) (src dst : VertexId) : Path :=
  let vs := findPathVertices (ops.getParent st) src (ops.getDistance st dst + 1) dst
  ⟨vs.length - 1, vs⟩

/-! ## `GraphStore` (`src/graph_store.hpp/.cpp`) -/

inductive Strategy
  | OPTIMIZED_PERFORMANCE
  | OPTIMIZED_MEMORY
  deriving DecidableEq, Repr

/-- The `vertex_state_` pointer: one of the two concrete variants, fixed at
construction. -/
inductive VState
  | mem (s : OptimizedMemoryVertexState)
  | perf (s : OptimizedPerformanceVertexState)
  deriving DecidableEq, Repr

structure GraphStore where
  graph : LabelledGraph
  vertex_state : VState
  deriving DecidableEq, Repr

/-- Which concrete variant a store holds (observable via dispatch). -/
def strategyOf (s : GraphStore) : Strategy :=
  match s.vertex_state with
  | .mem _ => .OPTIMIZED_MEMORY
  | .perf _ => .OPTIMIZED_PERFORMANCE

/-- `GraphStore::GraphStore(Strategy)`. -/
def GraphStore.newWith (strategy : Strategy) : GraphStore :=
  match strategy with
  | .OPTIMIZED_MEMORY => ⟨⟨[], []⟩, .mem ⟨[], []⟩⟩
  | .OPTIMIZED_PERFORMANCE => ⟨⟨[], []⟩, .perf ⟨[], [], []⟩⟩

/-- `GraphStore::GraphStore()` delegates to the `Strategy` constructor with
`Strategy::OPTIMIZED_PERFORMANCE`. -/
def GraphStore.defaultCtorStrategy : Strategy := .OPTIMIZED_PERFORMANCE

def GraphStore.new : GraphStore := GraphStore.newWith GraphStore.defaultCtorStrategy

/-- The declared default of the bulk constructor's `strategy` parameter
(`graph_store.hpp`, `const Strategy strategy = Strategy::OPTIMIZED_MEMORY`). -/
def GraphStore.bulkCtorDefaultStrategy : Strategy := .OPTIMIZED_MEMORY

def vertexExists (g : LabelledGraph) (v : VertexId) : Prop :=
  v < g.neighbours.length

instance (g : LabelledGraph) (v : VertexId) : Decidable (vertexExists g v) :=
  inferInstanceAs (Decidable (v < g.neighbours.length))

/-- `GraphStore::CreateVertex`. -/
def GraphStore.CreateVertex (s : GraphStore) : VertexId × GraphStore :=
  let id := s.graph.neighbours.length
  let g' : LabelledGraph := { s.graph with neighbours := s.graph.neighbours ++ [[]] }
  let vs' : VState :=
    match s.vertex_state with
    | .mem m => .mem m.ProcessVertexAddition
    | .perf p => .perf p.ProcessVertexAddition
  (id, ⟨g', vs'⟩)

/-- `GraphStore::CreateEdge`. -/
def GraphStore.CreateEdge (s : GraphStore) (src dst : VertexId) : Bool × GraphStore :=
  if ¬ vertexExists s.graph src ∨ ¬ vertexExists s.graph dst then (false, s)
  else
    let g' : LabelledGraph :=
      { s.graph with neighbours :=
          s.graph.neighbours.set src (s.graph.neighbours.getD src [] ++ [dst]) }
    (true, { s with graph := g' })

/-- `GraphStore::AddLabel`. -/
def GraphStore.AddLabel (s : GraphStore) (v : VertexId) (label : Label) :
    Bool × GraphStore :=
  if ¬ vertexExists s.graph v then (false, s)
  else
    let g' : LabelledGraph :=
      { s.graph with label_to_vertices := lmapInsertInto s.graph.label_to_vertices label v }
    (true, { s with graph := g' })

/-- `GraphStore::RemoveLabel`. -/
def GraphStore.RemoveLabel (s : GraphStore) (v : VertexId) (label : Label) :
    Bool × GraphStore :=
  if ¬ vertexExists s.graph v then (false, s)
  else
    let g' : LabelledGraph :=
      { s.graph with label_to_vertices := lmapEraseFrom s.graph.label_to_vertices label v }
    (true, { s with graph := g' })

/-! ## The BFS (`GraphStore::ShortestPath`, `src/graph_store.cpp` lines 86-152) -/

/-- The body of the `for (neighbour : graph_.neighbours[curr_vertex])` loop:
relaxation plus the early-exit check on `dst`.  Returns the updated state,
queue, and whether `reached_dst_vertex` was set (the loop `break`s then). -/
def expandNeighbours {σ : Type} (ops : VSOps σ) (valid : VSet) (dst c : VertexId) :
    List VertexId → σ → List VertexId → σ × List VertexId × Bool
  | [], st, q => (st, q, false)
  | w :: ws, st, q =>
      if w ∈ valid then
        let dc := ops.getDistance st c
        let dw := ops.getDistance st w
        let (st', q') :=
          if (dc + 1) % U64 < dw then
            (ops.setParent (ops.setDistance st w ((dc + 1) % U64)) w c, q ++ [w])
          else (st, q)
        if w = dst then (st', q', true)
        else expandNeighbours ops valid dst c ws st' q'
      else expandNeighbours ops valid dst c ws st q

/-- The `while (!vertex_queue.empty() && !reached_dst_vertex)` loop, bounded by
fuel (proved sufficient below: each vertex is enqueued at most once). -/
def bfsLoop {σ : Type} (ops : VSOps σ) (g : LabelledGraph) (valid : VSet)
    (dst : VertexId) : Nat → σ → List VertexId → Bool → σ × List VertexId × Bool
  | 0, st, q, reached => (st, q, reached)
  | fuel + 1, st, q, reached =>
      if reached then (st, q, reached)
      else
        match q with
        | [] => (st, [], reached)
        | c :: rest =>
            let (st', q', reached') :=
              expandNeighbours ops valid dst c (g.neighbours.getD c []) st rest
            bfsLoop ops g valid dst fuel st' q' reached'

/-- `GraphStore::ShortestPath`, parametric in the `VertexState` variant. -/
def shortestPathImpl {σ : Type} (ops : VSOps σ) (g : LabelledGraph) (st : σ)
    (src dst : VertexId) (label : Label) : Option Path × σ :=
  if ¬ vertexExists g src ∨ ¬ vertexExists g dst then (none, ops.reset st)
  else
    match lmapFind g.label_to_vertices label with
    | none => (none, ops.reset st)
    | some valid =>
        if src ∉ valid ∨ dst ∉ valid then (none, ops.reset st)
        else
          let st1 := ops.setDistance st src 0
          let reached0 := decide (src = dst)
          let (st2, _q, reached) :=
            bfsLoop ops g valid dst (g.neighbours.length + 1) st1 [src] reached0
          if reached then
            let p := ops.FindPath st2 src dst
            (some p, ops.reset st2)
          else (none, ops.reset st2)

/-- `GraphStore::ShortestPath` on a store: dispatch through `vertex_state_`. -/
def GraphStore.ShortestPath (s : GraphStore) (src dst : VertexId) (label : Label) :
    Option Path × GraphStore :=
  match s.vertex_state with
  | .mem m =>
      let (r, m') := shortestPathImpl memOps s.graph m src dst label
      (r, { s with vertex_state := .mem m' })
  | .perf p =>
      let (r, p') := shortestPathImpl perfOps s.graph p src dst label
      (r, { s with vertex_state := .perf p' })

/-! ## Mutation sequences and reachable stores -/

inductive StoreOp
  | createVertex
  | createEdge (src dst : VertexId)
  | addLabel (v : VertexId) (label : Label)
  | removeLabel (v : VertexId) (label : Label)
  deriving DecidableEq, Repr

def applyOp (s : GraphStore) : StoreOp → GraphStore
  | .createVertex => (s.CreateVertex).2
  | .createEdge a b => (s.CreateEdge a b).2
  | .addLabel v l => (s.AddLabel v l).2
  | .removeLabel v l => (s.RemoveLabel v l).2

def applyOps (s : GraphStore) (ops : List StoreOp) : GraphStore :=
  ops.foldl applyOp s

/-- A store produced by some constructor call followed by any sequence of
mutation operations. -/
def Reachable (s : GraphStore) : Prop :=
  ∃ strat ops, s = applyOps (GraphStore.newWith strat) ops

/-! ## The bulk constructor (`graph_store.cpp` lines 20-44)

`throw std::invalid_argument` is modelled as `none`. -/

def populateLabelSet : GraphStore → Label → List VertexId → Option GraphStore
  | s, _, [] => some s
  | s, label, v :: vs =>
      let (ok, s') := s.AddLabel v label
      if ok then populateLabelSet s' label vs else none

def populateLabels : GraphStore → List (Label × VSet) → Option GraphStore
  | s, [] => some s
  | s, (label, vs) :: rest =>
      match populateLabelSet s label vs with
      | none => none
      | some s' => populateLabels s' rest

def populateEdges : GraphStore → List Edge → Option GraphStore
  | s, [] => some s
  | s, e :: es =>
      let (ok, s') := s.CreateEdge e.source_vertex e.destination_vertex
      if ok then populateEdges s' es else none

/-- `GraphStore::GraphStore(vertex_count, label_to_vertices, edges, strategy)`.
The `unordered_map` argument is modelled as the list of its entries. -/
def GraphStore.bulkCtor (vertex_count : Nat) (label_to_vertices : List (Label × VSet))
    (edges : List Edge) (strategy : Strategy) : Option GraphStore :=
  let s0 := GraphStore.newWith strategy
  let s1 := (List.range vertex_count).foldl (fun s _ => (s.CreateVertex).2) s0
  match populateLabels s1 label_to_vertices with
  | none => none
  | some s2 => populateEdges s2 edges

/-! ## Instrumented BFS loop

Identical to `expandNeighbours`/`bfsLoop` but additionally records the list of
vertices pushed onto the queue (ghost data used to state claim C9); the
projection lemmas below show it computes the same results. -/

def expandNeighboursTr {σ : Type} (ops : VSOps σ) (valid : VSet) (dst c : VertexId) :
    List VertexId → σ → List VertexId → σ × List VertexId × Bool × List VertexId
  | [], st, q => (st, q, false, [])
  | w :: ws, st, q =>
      if w ∈ valid then
        let dc := ops.getDistance st c
        let dw := ops.getDistance st w
        let (st', q', tr) :=
          if (dc + 1) % U64 < dw then
            (ops.setParent (ops.setDistance st w ((dc + 1) % U64)) w c, q ++ [w], [w])
          else (st, q, [])
        if w = dst then (st', q', true, tr)
        else
          let (st'', q'', r'', tr'') := expandNeighboursTr ops valid dst c ws st' q'
          (st'', q'', r'', tr ++ tr'')
      else expandNeighboursTr ops valid dst c ws st q

def bfsLoopTr {σ : Type} (ops : VSOps σ) (g : LabelledGraph) (valid : VSet)
    (dst : VertexId) :
    Nat → σ → List VertexId → Bool → σ × List VertexId × Bool × List VertexId
  | 0, st, q, reached => (st, q, reached, [])
  | fuel + 1, st, q, reached =>
      if reached then (st, q, reached, [])
      else
        match q with
        | [] => (st, [], reached, [])
        | c :: rest =>
            let (st', q', reached', tr) :=
              expandNeighboursTr ops valid dst c (g.neighbours.getD c []) st rest
            let (st'', q'', r'', tr'') := bfsLoopTr ops g valid dst fuel st' q' reached'
            (st'', q'', r'', tr ++ tr'')

/-- The full list of vertices pushed onto the BFS queue during a
`ShortestPath` call that reaches the BFS (the initial `src` push included);
`[]` when an early-return branch fires. -/
def GraphStore.ShortestPathTrace (s : GraphStore) (src dst : VertexId) (label : Label) :
    List VertexId :=
  let g := s.graph
  if ¬ vertexExists g src ∨ ¬ vertexExists g dst then []
  else
    match lmapFind g.label_to_vertices label with
    | none => []
    | some valid =>
        if src ∉ valid ∨ dst ∉ valid then []
        else
          match s.vertex_state with
          | .mem m =>
              src :: (bfsLoopTr memOps g valid dst (g.neighbours.length + 1)
                (memOps.setDistance m src 0) [src] (decide (src = dst))).2.2.2
          | .perf p =>
              src :: (bfsLoopTr perfOps g valid dst (g.neighbours.length + 1)
                (perfOps.setDistance p src 0) [src] (decide (src = dst))).2.2.2

/-! ## Sequences of raw setter calls on the dense variant (for claim C6) -/

inductive SetterCall
  | setDist (v : VertexId) (d : Nat)
  | setPar (v : VertexId) (p : Nat)
  deriving DecidableEq, Repr

def SetterCall.vertex : SetterCall → VertexId
  | .setDist v _ => v
  | .setPar v _ => v

/-- Whether a setter call is a `SetDistance` (only these append to the
affected list). -/
def SetterCall.isDist : SetterCall → Bool
  | .setDist _ _ => true
  | .setPar _ _ => false

def applySetters (s : OptimizedPerformanceVertexState) :
    List SetterCall → OptimizedPerformanceVertexState
  | [] => s
  | .setDist v d :: rest => applySetters (s.SetDistance v d) rest
  | .setPar v p :: rest => applySetters (s.SetParent v p) rest

/-! ## Well-formedness and cleanliness invariants -/

/-- Every stored vertex id (adjacency targets and label-set members) refers to
an existing vertex. -/
def GraphWF (g : LabelledGraph) : Prop :=
  (∀ i, ∀ w ∈ g.neighbours.getD i [], w < g.neighbours.length) ∧
  (∀ l vs, lmapFind g.label_to_vertices l = some vs → ∀ v ∈ vs, v < g.neighbours.length)

/-- The traversal state holds no data: empty maps for the sparse variant,
all-default arrays (sized to the vertex count) and an empty affected list for
the dense variant. -/
def CleanVState (n : Nat) : VState → Prop
  | .mem m => m = ⟨[], []⟩
  | .perf p => p = ⟨List.replicate n 0, List.replicate n INF, []⟩

def StoreWF (s : GraphStore) : Prop :=
  GraphWF s.graph ∧ CleanVState s.graph.neighbours.length s.vertex_state

/-! ## Mathematical reachability in the label-induced subgraph -/

/-- `ReachN g valid src k v`: there is a directed walk of length `k` from
`src` to `v` all of whose vertices lie in `valid`. -/
inductive ReachN (g : LabelledGraph) (valid : VSet) (src : VertexId) : Nat → VertexId → Prop
  | refl : src ∈ valid → ReachN g valid src 0 src
  | step {k u w} : ReachN g valid src k u → w ∈ g.neighbours.getD u [] →
      w ∈ valid → ReachN g valid src (k + 1) w

/-! ## Abstractions of the sparse state used by the BFS invariant -/

/-- Distance abstraction of the sparse state (`INF` = unset). -/
def mdist (m : OptimizedMemoryVertexState) : VertexId → Nat :=
  m.GetDistance

/-- Parent abstraction of the sparse state. -/
def mpar (m : OptimizedMemoryVertexState) (v : VertexId) : Option Nat :=
  alistFind m.parent_ v

/-- Number of discovered vertices (used as part of the loop variant). -/
def Dcard (n : Nat) (dist : VertexId → Nat) : Nat :=
  ((Finset.range n).filter (fun v => dist v ≠ INF)).card

/-- Correctness facts about distances and parents that survive the early
`break` of the BFS (they do not mention the queue). -/
structure DistCore (g : LabelledGraph) (valid : VSet) (src : VertexId)
    (dist : VertexId → Nat) (pget : VertexId → Option Nat) : Prop where
  dist_src : dist src = 0
  disc_lt : ∀ v, dist v ≠ INF → v < g.neighbours.length
  disc_valid : ∀ v, dist v ≠ INF → v ∈ valid
  reach_of_disc : ∀ v, dist v ≠ INF → ReachN g valid src (dist v) v
  min_of_disc : ∀ v, dist v ≠ INF → ∀ k, ReachN g valid src k v → dist v ≤ k
  parent_chain : ∀ v, dist v ≠ INF → v ≠ src →
      ∃ u, pget v = some u ∧ dist u ≠ INF ∧ dist v = dist u + 1 ∧
        v ∈ g.neighbours.getD u []

/-- The full invariant of the BFS `while` loop, at the start of an iteration. -/
structure BfsInv (g : LabelledGraph) (valid : VSet) (src : VertexId)
    (dist : VertexId → Nat) (pget : VertexId → Option Nat)
    (q : List VertexId) (d : Nat) : Prop where
  core : DistCore g valid src dist pget
  disc_le : ∀ v, dist v ≠ INF → dist v ≤ d + 1
  level_complete : ∀ v k, k ≤ d → ReachN g valid src k v → dist v ≠ INF
  expanded : ∀ u, dist u ≠ INF → u ∉ q →
      ∀ w ∈ g.neighbours.getD u [], w ∈ valid → dist w ≠ INF ∧ dist w ≤ dist u + 1
  queue_split : ∃ q1 q2, q = q1 ++ q2 ∧ (∀ v ∈ q1, dist v = d) ∧ (∀ v ∈ q2, dist v = d + 1)
  queue_disc : ∀ v ∈ q, dist v ≠ INF
  levels : ∀ j, j ≤ d → ∃ v, dist v = j ∧ dist v ≠ INF

/-- Simulation relation between the sparse and the dense state (`n` = vertex
count): equal distances everywhere in range, and the dense parent array agrees
with every binding of the sparse parent map. -/
def Rel (n : Nat) (m : OptimizedMemoryVertexState)
    (p : OptimizedPerformanceVertexState) : Prop :=
  p.distances_.length = n ∧ p.parent_.length = n ∧
  (∀ v, v < n → p.GetDistance v = m.GetDistance v) ∧
  (∀ v u, alistFind m.parent_ v = some u → v < n ∧ p.GetParent v = u)

/-- The traversal state just before the final `Reset` on whichever exit path
`ShortestPath` takes (proof device: `shortestPathImpl`'s final state is the
`reset` of this). -/
def spImplPreState {σ : Type} (ops : VSOps σ) (g : LabelledGraph) (st : σ)
    (src dst : VertexId) (label : Label) : σ :=
  if ¬ vertexExists g src ∨ ¬ vertexExists g dst then st
  else
    match lmapFind g.label_to_vertices label with
    | none => st
    | some valid =>
        if src ∉ valid ∨ dst ∉ valid then st
        else
          (bfsLoop ops g valid dst (g.neighbours.length + 1)
            (ops.setDistance st src 0) [src] (decide (src = dst))).1

/-- All entries outside the affected list of a dense state are at their
defaults (and the arrays have the right size). -/
def PerfUntouched (n : Nat) (p : OptimizedPerformanceVertexState) : Prop :=
  p.distances_.length = n ∧ p.parent_.length = n ∧
  ∀ i, i ∉ p.affected_vertices_ →
    p.distances_.getD i INF = INF ∧ p.parent_.getD i 0 = 0

/-- Invariant of the inner neighbour-expansion loop: the full BFS invariant
with the fully-expanded guarantee weakened to exempt the vertex `c` currently
being expanded, plus the facts that `c` sits at the current level `d` and that
`dst` is still undiscovered. -/
structure ExpInv (g : LabelledGraph) (valid : VSet) (src dst c : VertexId)
    (dist : VertexId → Nat) (pget : VertexId → Option Nat)
    (q : List VertexId) (d : Nat) : Prop where
  core : DistCore g valid src dist pget
  disc_le : ∀ v, dist v ≠ INF → dist v ≤ d + 1
  level_complete : ∀ v k, k ≤ d → ReachN g valid src k v → dist v ≠ INF
  expanded' : ∀ u, dist u ≠ INF → u ∉ q → u ≠ c →
      ∀ w ∈ g.neighbours.getD u [], w ∈ valid → dist w ≠ INF ∧ dist w ≤ dist u + 1
  queue_split : ∃ q1 q2, q = q1 ++ q2 ∧ (∀ v ∈ q1, dist v = d) ∧ (∀ v ∈ q2, dist v = d + 1)
  queue_disc : ∀ v ∈ q, dist v ≠ INF
  levels : ∀ j, j ≤ d → ∃ v, dist v = j ∧ dist v ≠ INF
  dist_c : dist c = d
  dst_undisc : dist dst = INF

/-- Bookkeeping relating the sparse state before and after a BFS step: the
vertices in `tr` are exactly the freshly discovered ones (each was
undiscovered, is now discovered, and the discovered count grew by `|tr|`),
and previously discovered vertices keep their distances. -/
structure StepSim (n : Nat) (m m' : OptimizedMemoryVertexState)
    (tr : List VertexId) : Prop where
  mono_eq : ∀ v, mdist m v ≠ INF → mdist m' v = mdist m v
  fresh : ∀ v ∈ tr, mdist m v = INF
  disc_new : ∀ v ∈ tr, mdist m' v ≠ INF
  nodup : tr.Nodup
  dcard : Dcard n (mdist m') = Dcard n (mdist m) + tr.length

/-- The graph component of `applyOp` (the mutating operations never read the
traversal state, so the graph evolves independently of the strategy). -/
def gApplyOp (g : LabelledGraph) : StoreOp → LabelledGraph
  | .createVertex => { g with neighbours := g.neighbours ++ [[]] }
  | .createEdge a b =>
      if ¬ vertexExists g a ∨ ¬ vertexExists g b then g
      else { g with neighbours := g.neighbours.set a (g.neighbours.getD a [] ++ [b]) }
  | .addLabel v l =>
      if ¬ vertexExists g v then g
      else { g with label_to_vertices := lmapInsertInto g.label_to_vertices l v }
  | .removeLabel v l =>
      if ¬ vertexExists g v then g
      else { g with label_to_vertices := lmapEraseFrom g.label_to_vertices l v }

/-- A small concrete store used to witness the theorems below: two vertices,
both labelled `"a"`, one edge `0 → 1`. -/
def witnessOps : List StoreOp :=
  [.createVertex, .createVertex, .addLabel 0 "a", .addLabel 1 "a", .createEdge 0 1]

def witnessStore : GraphStore :=
  applyOps (GraphStore.newWith .OPTIMIZED_PERFORMANCE) witnessOps

/-! # Lemmas and theorems -/

/-! ## Association-list and vertex-set lemmas -/

theorem alistFind_alistSet (m : List (Nat × Nat)) (k v k' : Nat) :
    alistFind (alistSet m k v) k' = if k' = k then some v else alistFind m k' := by
  induction m with
  | nil =>
      by_cases h : k' = k
      · simp [alistSet, alistFind, h]
      · simp [alistSet, alistFind, h, Ne.symm h]
  | cons kv rest ih =>
      obtain ⟨a, b⟩ := kv
      by_cases hak : a = k
      · subst hak
        by_cases hk' : k' = a
        · simp [alistSet, alistFind, hk']
        · simp [alistSet, alistFind, hk', Ne.symm hk']
      · by_cases hk' : k' = a
        · subst hk'
          simp [alistSet, alistFind, hak, Ne.symm hak]
        · simp [alistSet, alistFind, hak, hk', Ne.symm hk', ih]

theorem VSet.mem_insertV (s : VSet) (v w : VertexId) :
    w ∈ VSet.insertV s v ↔ w ∈ s ∨ w = v := by
  unfold VSet.insertV
  split
  · rename_i h
    constructor
    · exact fun hw => Or.inl hw
    · rintro (hw | rfl) <;> assumption
  · simp [or_comm]

theorem VSet.mem_eraseV (s : VSet) (v w : VertexId) :
    w ∈ VSet.eraseV s v ↔ w ∈ s ∧ w ≠ v := by
  simp [VSet.eraseV, List.mem_filter]

theorem lmapFind_insertInto (m : List (Label × VSet)) (label : Label) (v : VertexId)
    (l : Label) :
    lmapFind (lmapInsertInto m label v) l =
      if l = label then some (VSet.insertV ((lmapFind m label).getD []) v)
      else lmapFind m l := by
  induction m with
  | nil =>
      by_cases h : l = label
      · simp [lmapInsertInto, lmapFind, h]
      · simp [lmapInsertInto, lmapFind, h, Ne.symm h]
  | cons kv rest ih =>
      obtain ⟨a, s⟩ := kv
      by_cases hal : a = label
      · subst hal
        by_cases hl : l = a
        · simp [lmapInsertInto, lmapFind, hl]
        · simp [lmapInsertInto, lmapFind, hl, Ne.symm hl]
      · by_cases hl : l = a
        · subst hl
          simp [lmapInsertInto, lmapFind, hal, Ne.symm hal]
        · simp [lmapInsertInto, lmapFind, hal, hl, Ne.symm hl, ih]

theorem lmapFind_eraseFrom (m : List (Label × VSet)) (label : Label) (v : VertexId)
    (l : Label) :
    lmapFind (lmapEraseFrom m label v) l =
      if l = label then (lmapFind m label).map (fun s => VSet.eraseV s v)
      else lmapFind m l := by
  induction m with
  | nil =>
      by_cases h : l = label
      · simp [lmapEraseFrom, lmapFind, h]
      · simp [lmapEraseFrom, lmapFind, h, Ne.symm h]
  | cons kv rest ih =>
      obtain ⟨a, s⟩ := kv
      by_cases hal : a = label
      · subst hal
        by_cases hl : l = a
        · simp [lmapEraseFrom, lmapFind, hl]
        · simp [lmapEraseFrom, lmapFind, hl, Ne.symm hl]
      · by_cases hl : l = a
        · subst hl
          simp [lmapEraseFrom, lmapFind, hal, Ne.symm hal]
        · simp [lmapEraseFrom, lmapFind, hal, hl, Ne.symm hl, ih]

theorem List.getD_append_left {α : Type} (l1 l2 : List α) (i : Nat) (d : α)
    (h : i < l1.length) : (l1 ++ l2).getD i d = l1.getD i d := by
  simp [List.getD, List.getElem?_append_left h]

/-! ## Frame of `ShortestPath` over the graph (claim C10) -/

/-- C10: `ShortestPath` never mutates the graph: on every exit path the
adjacency lists and the label index after the call are those before the call
(only the traversal scratch state is written). -/
theorem shortestPath_frame (s : GraphStore) (src dst : VertexId) (label : Label) :
    ((s.ShortestPath src dst label).2).graph = s.graph := by
  obtain ⟨g, vs⟩ := s
  cases vs <;> rfl

/-! ## Soft failures of the mutating operations (claim C7) -/

/-- C7: `CreateEdge`, `AddLabel`, `RemoveLabel` return `false` and leave the
store unchanged when some vertex argument is out of range, and return `true`
when all vertex arguments are in range. -/
theorem mutations_soft_failure :
    (∀ (s : GraphStore) (src dst : VertexId),
      (¬ vertexExists s.graph src ∨ ¬ vertexExists s.graph dst) →
        s.CreateEdge src dst = (false, s)) ∧
    (∀ (s : GraphStore) (v : VertexId) (l : Label),
      ¬ vertexExists s.graph v → s.AddLabel v l = (false, s)) ∧
    (∀ (s : GraphStore) (v : VertexId) (l : Label),
      ¬ vertexExists s.graph v → s.RemoveLabel v l = (false, s)) ∧
    (∀ (s : GraphStore) (src dst : VertexId),
      vertexExists s.graph src → vertexExists s.graph dst →
        (s.CreateEdge src dst).1 = true) ∧
    (∀ (s : GraphStore) (v : VertexId) (l : Label),
      vertexExists s.graph v → (s.AddLabel v l).1 = true) ∧
    (∀ (s : GraphStore) (v : VertexId) (l : Label),
      vertexExists s.graph v → (s.RemoveLabel v l).1 = true) := by
  refine ⟨?_, ?_, ?_, ?_, ?_, ?_⟩
  · intro s src dst h
    simp only [GraphStore.CreateEdge]
    rw [if_pos h]
  · intro s v l h
    simp only [GraphStore.AddLabel]
    rw [if_pos (by simpa using h)]
  · intro s v l h
    simp only [GraphStore.RemoveLabel]
    rw [if_pos (by simpa using h)]
  · intro s src dst h1 h2
    simp only [GraphStore.CreateEdge]
    rw [if_neg (by simp [h1, h2])]
  · intro s v l h
    simp only [GraphStore.AddLabel]
    rw [if_neg (by simpa using h)]
  · intro s v l h
    simp only [GraphStore.RemoveLabel]
    rw [if_neg (by simpa using h)]

/-- Witness for C7 at a concrete store: one existing vertex, id `5` is out of
range. -/
theorem mutations_soft_failure_witness :
    ((GraphStore.new.CreateVertex).2.CreateEdge 0 5 =
      (false, (GraphStore.new.CreateVertex).2)) ∧
    ((GraphStore.new.CreateVertex).2.AddLabel 0 "a").1 = true := by
  constructor
  · exact mutations_soft_failure.1 (GraphStore.new.CreateVertex).2 0 5
      (by right; decide)
  · exact mutations_soft_failure.2.2.2.2.1 (GraphStore.new.CreateVertex).2 0 "a"
      (by decide)

/-! ## Strategy selection at construction (claim C8) -/

theorem strategyOf_CreateVertex (s : GraphStore) :
    strategyOf (s.CreateVertex).2 = strategyOf s := by
  obtain ⟨g, vs⟩ := s
  cases vs <;> rfl

theorem strategyOf_CreateEdge (s : GraphStore) (a b : VertexId) :
    strategyOf (s.CreateEdge a b).2 = strategyOf s := by
  unfold GraphStore.CreateEdge
  split <;> rfl

theorem strategyOf_AddLabel (s : GraphStore) (v : VertexId) (l : Label) :
    strategyOf (s.AddLabel v l).2 = strategyOf s := by
  unfold GraphStore.AddLabel
  split <;> rfl

theorem strategyOf_RemoveLabel (s : GraphStore) (v : VertexId) (l : Label) :
    strategyOf (s.RemoveLabel v l).2 = strategyOf s := by
  unfold GraphStore.RemoveLabel
  split <;> rfl

theorem strategyOf_applyOp (s : GraphStore) (op : StoreOp) :
    strategyOf (applyOp s op) = strategyOf s := by
  cases op with
  | createVertex => exact strategyOf_CreateVertex s
  | createEdge a b => exact strategyOf_CreateEdge s a b
  | addLabel v l => exact strategyOf_AddLabel s v l
  | removeLabel v l => exact strategyOf_RemoveLabel s v l

theorem strategyOf_applyOps (ops : List StoreOp) (s : GraphStore) :
    strategyOf (applyOps s ops) = strategyOf s := by
  induction ops generalizing s with
  | nil => rfl
  | cons op rest ih =>
      have h : applyOps s (op :: rest) = applyOps (applyOp s op) rest := rfl
      rw [h, ih (applyOp s op), strategyOf_applyOp]

theorem strategyOf_populateLabelSet (vs : List VertexId) (s : GraphStore)
    (label : Label) (s' : GraphStore) (h : populateLabelSet s label vs = some s') :
    strategyOf s' = strategyOf s := by
  induction vs generalizing s with
  | nil =>
      simp only [populateLabelSet] at h
      cases h
      rfl
  | cons v rest ih =>
      simp only [populateLabelSet] at h
      split at h
      · rw [ih _ h, strategyOf_AddLabel]
      · cases h

theorem strategyOf_populateLabels (ltv : List (Label × VSet)) (s : GraphStore)
    (s' : GraphStore) (h : populateLabels s ltv = some s') :
    strategyOf s' = strategyOf s := by
  induction ltv generalizing s with
  | nil =>
      simp only [populateLabels] at h
      cases h
      rfl
  | cons kv rest ih =>
      obtain ⟨label, vs⟩ := kv
      simp only [populateLabels] at h
      cases hm : populateLabelSet s label vs with
      | none => rw [hm] at h; cases h
      | some s1 =>
          rw [hm] at h
          rw [ih _ h, strategyOf_populateLabelSet vs s label s1 hm]

theorem strategyOf_populateEdges (es : List Edge) (s : GraphStore)
    (s' : GraphStore) (h : populateEdges s es = some s') :
    strategyOf s' = strategyOf s := by
  induction es generalizing s with
  | nil =>
      simp only [populateEdges] at h
      cases h
      rfl
  | cons e rest ih =>
      simp only [populateEdges] at h
      split at h
      · rw [ih _ h, strategyOf_CreateEdge]
      · cases h

theorem strategyOf_newWith (strat : Strategy) :
    strategyOf (GraphStore.newWith strat) = strat := by
  cases strat <;> rfl

theorem strategyOf_ShortestPath (s : GraphStore) (src dst : VertexId) (label : Label) :
    strategyOf ((s.ShortestPath src dst label).2) = strategyOf s := by
  obtain ⟨g, vs⟩ := s
  cases vs <;> rfl

/-- C8 counterexample: the bulk constructor's `strategy` parameter defaults to
`Strategy::OPTIMIZED_MEMORY` (graph_store.hpp line 119), so a store built by
the bulk constructor with the defaulted argument does NOT hold the
performance-optimized variant. -/
theorem bulk_ctor_default_not_performance :
    (GraphStore.bulkCtor 1 [] [] GraphStore.bulkCtorDefaultStrategy).map strategyOf =
        some Strategy.OPTIMIZED_MEMORY ∧
      Strategy.OPTIMIZED_MEMORY ≠ Strategy.OPTIMIZED_PERFORMANCE := by
  constructor
  · rfl
  · intro h
    cases h

/-- C8 amended: the zero-argument constructor defaults to the
performance-optimized variant, the bulk constructor's strategy parameter
defaults to the memory-optimized variant, every constructor installs exactly
the requested variant, and the variant never changes over the store's
lifetime (mutations and queries preserve it). -/
theorem ctor_strategy_defaults :
    strategyOf GraphStore.new = Strategy.OPTIMIZED_PERFORMANCE ∧
    GraphStore.defaultCtorStrategy = Strategy.OPTIMIZED_PERFORMANCE ∧
    GraphStore.bulkCtorDefaultStrategy = Strategy.OPTIMIZED_MEMORY ∧
    (∀ strat, strategyOf (GraphStore.newWith strat) = strat) ∧
    (∀ strat vc ltv es s, GraphStore.bulkCtor vc ltv es strat = some s →
        strategyOf s = strat) ∧
    (∀ s op, strategyOf (applyOp s op) = strategyOf s) ∧
    (∀ s src dst label, strategyOf ((s.ShortestPath src dst label).2) = strategyOf s) := by
  refine ⟨rfl, rfl, rfl, strategyOf_newWith, ?_, strategyOf_applyOp, strategyOf_ShortestPath⟩
  intro strat vc ltv es s h
  simp only [GraphStore.bulkCtor] at h
  cases hl : populateLabels (List.foldl (fun s _ => (s.CreateVertex).2)
      (GraphStore.newWith strat) (List.range vc)) ltv with
  | none =>
      simp only [hl] at h
      exact Option.noConfusion h
  | some s2 =>
      simp only [hl] at h
      have h1 : ∀ (l : List Nat) (s0 : GraphStore),
          strategyOf (List.foldl (fun s _ => (s.CreateVertex).2) s0 l) = strategyOf s0 := by
        intro l
        induction l with
        | nil => intro s0; rfl
        | cons a rest ih =>
            intro s0
            simp only [List.foldl_cons]
            rw [ih, strategyOf_CreateVertex]
      rw [strategyOf_populateEdges es s2 s h, strategyOf_populateLabels ltv _ s2 hl,
        h1, strategyOf_newWith]

/-- Witness for C8's amended theorem at concrete inputs. -/
theorem ctor_strategy_defaults_witness :
    strategyOf (GraphStore.newWith Strategy.OPTIMIZED_MEMORY) =
      Strategy.OPTIMIZED_MEMORY ∧
    strategyOf ((GraphStore.new.ShortestPath 0 0 "a").2) =
      Strategy.OPTIMIZED_PERFORMANCE := by
  constructor
  · exact ctor_strategy_defaults.2.2.2.2.1 Strategy.OPTIMIZED_MEMORY 0 [] []
      (GraphStore.newWith Strategy.OPTIMIZED_MEMORY) rfl
  · rw [ctor_strategy_defaults.2.2.2.2.2.2 GraphStore.new 0 0 "a"]
    exact ctor_strategy_defaults.1

/-! ## The zero-length self path (claim C3) -/

theorem findPathVertices_self (getP : VertexId → VertexId) (src : VertexId) (fuel : Nat) :
    findPathVertices getP src fuel src = [src] := by
  cases fuel <;> simp [findPathVertices]

theorem shortestPathImpl_self {σ : Type} (ops : VSOps σ) (g : LabelledGraph) (st : σ)
    (v : VertexId) (label : Label) (hv : vertexExists g v) :
    (shortestPathImpl ops g st v v label).1 =
      if v ∈ labelSet g label then some ⟨0, [v]⟩ else none := by
  unfold shortestPathImpl
  rw [if_neg (by simp [hv])]
  split
  · rename_i hnone
    simp [labelSet, hnone]
  · rename_i valid hsome
    have hls : labelSet g label = valid := by simp [labelSet, hsome]
    rw [hls]
    by_cases hm : v ∈ valid
    · rw [if_neg (by simp [hm]), if_pos hm]
      simp [bfsLoop, VSOps.FindPath, findPathVertices_self]
    · rw [if_pos (by simp [hm]), if_neg hm]

/-- C3: for an existing vertex `v`, `ShortestPath(v, v, L)` returns the
zero-length path `{0, [v]}` exactly when `v` currently holds label `L`, and
NotFound otherwise. -/
theorem shortestPath_self (s : GraphStore) (v : VertexId) (label : Label)
    (hv : vertexExists s.graph v) :
    ((s.ShortestPath v v label).1 = some ⟨0, [v]⟩ ↔ v ∈ labelSet s.graph label) ∧
    (v ∉ labelSet s.graph label → (s.ShortestPath v v label).1 = none) := by
  have h : (s.ShortestPath v v label).1 =
      if v ∈ labelSet s.graph label then some ⟨0, [v]⟩ else none := by
    obtain ⟨g, vs⟩ := s
    cases vs with
    | mem m => simpa [GraphStore.ShortestPath] using shortestPathImpl_self memOps g m v label hv
    | perf p => simpa [GraphStore.ShortestPath] using shortestPathImpl_self perfOps g p v label hv
  rw [h]
  by_cases hm : v ∈ labelSet s.graph label <;> simp [hm]

/-- Witness for C3: a one-vertex store where the vertex holds `"a"` and not
`"b"`. -/
theorem shortestPath_self_witness :
    (((GraphStore.new.CreateVertex).2.AddLabel 0 "a").2.ShortestPath 0 0 "a").1 =
        some ⟨0, [0]⟩ ∧
    (((GraphStore.new.CreateVertex).2.AddLabel 0 "a").2.ShortestPath 0 0 "b").1 =
        none := by
  constructor
  · exact (shortestPath_self ((GraphStore.new.CreateVertex).2.AddLabel 0 "a").2 0 "a"
      (by decide)).1.mpr (by decide)
  · exact (shortestPath_self ((GraphStore.new.CreateVertex).2.AddLabel 0 "a").2 0 "b"
      (by decide)).2 (by decide)

/-! ## List helper lemmas -/

theorem getD_set_self (l : List Nat) (i : Nat) (a d : Nat) :
    (l.set i a).getD i d = if i < l.length then a else d := by
  induction l generalizing i with
  | nil => simp [List.getD]
  | cons x rest ih =>
      cases i with
      | zero => simp [List.getD]
      | succ j => simpa [List.getD] using ih j

theorem getD_set_ne (l : List Nat) {i j : Nat} (h : i ≠ j) (a d : Nat) :
    (l.set i a).getD j d = l.getD j d := by
  induction l generalizing i j with
  | nil => simp
  | cons x rest ih =>
      cases i with
      | zero =>
          cases j with
          | zero => exact absurd rfl h
          | succ j' => simp [List.getD]
      | succ i' =>
          cases j with
          | zero => simp [List.getD]
          | succ j' => simpa [List.getD] using ih (fun hh => h (by rw [hh]))

theorem getD_append_sing (l : List Nat) (x : Nat) (i : Nat) (d : Nat) :
    (l ++ [x]).getD i d =
      if i < l.length then l.getD i d else if i = l.length then x else d := by
  induction l generalizing i with
  | nil =>
      cases i with
      | zero => simp [List.getD]
      | succ j => simp [List.getD]
  | cons y rest ih =>
      cases i with
      | zero => simp [List.getD]
      | succ j => simpa [List.getD, Nat.succ_lt_succ_iff] using ih j

theorem getDl_append_sing (l : List (List VertexId)) (x : List VertexId) (i : Nat)
    (d : List VertexId) :
    (l ++ [x]).getD i d =
      if i < l.length then l.getD i d else if i = l.length then x else d := by
  induction l generalizing i with
  | nil =>
      cases i with
      | zero => simp [List.getD]
      | succ j => simp [List.getD]
  | cons y rest ih =>
      cases i with
      | zero => simp [List.getD]
      | succ j => simpa [List.getD, Nat.succ_lt_succ_iff] using ih j

theorem getDl_set_self (l : List (List VertexId)) (i : Nat) (a d : List VertexId) :
    (l.set i a).getD i d = if i < l.length then a else d := by
  induction l generalizing i with
  | nil => simp [List.getD]
  | cons x rest ih =>
      cases i with
      | zero => simp [List.getD]
      | succ j => simpa [List.getD] using ih j

theorem getDl_set_ne (l : List (List VertexId)) {i j : Nat} (h : i ≠ j)
    (a d : List VertexId) :
    (l.set i a).getD j d = l.getD j d := by
  induction l generalizing i j with
  | nil => simp
  | cons x rest ih =>
      cases i with
      | zero =>
          cases j with
          | zero => exact absurd rfl h
          | succ j' => simp [List.getD]
      | succ i' =>
          cases j with
          | zero => simp [List.getD]
          | succ j' => simpa [List.getD] using ih (fun hh => h (by rw [hh]))

theorem getD_replicate (n : Nat) (a : Nat) (i : Nat) (d : Nat) :
    (List.replicate n a).getD i d = if i < n then a else d := by
  induction n generalizing i with
  | zero => simp [List.getD]
  | succ m ih =>
      cases i with
      | zero => simp [List.replicate, List.getD]
      | succ j => simpa [List.replicate, List.getD, Nat.succ_lt_succ_iff] using ih j

theorem eq_replicate_of_getD (l : List Nat) (n : Nat) (a : Nat)
    (hlen : l.length = n) (h : ∀ i, i < n → l.getD i a = a) : l = List.replicate n a := by
  apply List.ext_getElem
  · simp [hlen]
  · intro i h1 h2
    have hi : i < n := by simpa [hlen] using h1
    have := h i hi
    rw [List.getD_eq_getElem?_getD, List.getElem?_eq_getElem h1] at this
    simp at this
    simp [this, List.getElem_replicate]

/-! ## Dense-variant affected-list tracking (claim C6) -/

theorem resetGo_par (l : List VertexId) (par dis : List Nat) (i : Nat) :
    ((OptimizedPerformanceVertexState.Reset.go l par dis).1).getD i 0 =
      if i ∈ l then 0 else par.getD i 0 := by
  induction l generalizing par dis with
  | nil => simp [OptimizedPerformanceVertexState.Reset.go]
  | cons v rest ih =>
      simp only [OptimizedPerformanceVertexState.Reset.go]
      rw [ih]
      by_cases hmem : i ∈ rest
      · simp [hmem]
      · by_cases hiv : i = v
        · subst hiv
          rw [if_neg hmem, if_pos (List.mem_cons_self _ _), getD_set_self]
          split <;> rfl
        · have hne : ¬ v = i := fun hh => hiv hh.symm
          rw [if_neg hmem, if_neg (by simp [hiv, hmem]), getD_set_ne par hne 0 0]

theorem resetGo_dis (l : List VertexId) (par dis : List Nat) (i : Nat) :
    ((OptimizedPerformanceVertexState.Reset.go l par dis).2).getD i INF =
      if i ∈ l then INF else dis.getD i INF := by
  induction l generalizing par dis with
  | nil => simp [OptimizedPerformanceVertexState.Reset.go]
  | cons v rest ih =>
      simp only [OptimizedPerformanceVertexState.Reset.go]
      rw [ih]
      by_cases hmem : i ∈ rest
      · simp [hmem]
      · by_cases hiv : i = v
        · subst hiv
          rw [if_neg hmem, if_pos (List.mem_cons_self _ _), getD_set_self]
          split <;> rfl
        · have hne : ¬ v = i := fun hh => hiv hh.symm
          rw [if_neg hmem, if_neg (by simp [hiv, hmem]), getD_set_ne dis hne INF INF]

theorem resetGo_lengths (l : List VertexId) (par dis : List Nat) :
    ((OptimizedPerformanceVertexState.Reset.go l par dis).1).length = par.length ∧
    ((OptimizedPerformanceVertexState.Reset.go l par dis).2).length = dis.length := by
  induction l generalizing par dis with
  | nil => simp [OptimizedPerformanceVertexState.Reset.go]
  | cons v rest ih =>
      simp only [OptimizedPerformanceVertexState.Reset.go]
      simpa using ih (par.set v 0) (dis.set v INF)

theorem perfReset_affected (s : OptimizedPerformanceVertexState) :
    (s.Reset).affected_vertices_ = [] := rfl

theorem perfReset_par (s : OptimizedPerformanceVertexState) (i : Nat) :
    (s.Reset).parent_.getD i 0 =
      if i ∈ s.affected_vertices_ then 0 else s.parent_.getD i 0 := by
  have := resetGo_par s.affected_vertices_ s.parent_ s.distances_ i
  simpa [OptimizedPerformanceVertexState.Reset] using this

theorem perfReset_dis (s : OptimizedPerformanceVertexState) (i : Nat) :
    (s.Reset).distances_.getD i INF =
      if i ∈ s.affected_vertices_ then INF else s.distances_.getD i INF := by
  have := resetGo_dis s.affected_vertices_ s.parent_ s.distances_ i
  simpa [OptimizedPerformanceVertexState.Reset] using this

theorem perfReset_lengths (s : OptimizedPerformanceVertexState) :
    (s.Reset).parent_.length = s.parent_.length ∧
    (s.Reset).distances_.length = s.distances_.length := by
  have := resetGo_lengths s.affected_vertices_ s.parent_ s.distances_
  simpa [OptimizedPerformanceVertexState.Reset] using this

theorem applySetters_affected (calls : List SetterCall)
    (s : OptimizedPerformanceVertexState) :
    (applySetters s calls).affected_vertices_ =
      s.affected_vertices_ ++
        (calls.filter SetterCall.isDist).map SetterCall.vertex := by
  induction calls generalizing s with
  | nil => simp [applySetters]
  | cons c rest ih =>
      cases c with
      | setDist v d =>
          simp [applySetters, ih, OptimizedPerformanceVertexState.SetDistance,
            SetterCall.vertex, SetterCall.isDist, List.filter_cons]
      | setPar v p =>
          simp [applySetters, ih, OptimizedPerformanceVertexState.SetParent,
            SetterCall.vertex, SetterCall.isDist, List.filter_cons]

/-- Counterexample to C6 as stated: `OptimizedPerformanceVertexState::SetParent`
(`vertex_state.cpp` lines 76-79) writes only `parent_` and does not append the
vertex to the affected list, so a parent entry written only by `SetParent`
survives `Reset`: from a clean one-vertex state, `SetParent 0 5` followed by
`Reset` leaves `parent_[0] = 5` instead of the default `0`. -/
theorem perf_setparent_not_tracked :
    ((⟨List.replicate 1 0, List.replicate 1 INF, []⟩ :
        OptimizedPerformanceVertexState).SetParent 0 5).affected_vertices_ = [] ∧
    (((⟨List.replicate 1 0, List.replicate 1 INF, []⟩ :
        OptimizedPerformanceVertexState).SetParent 0 5).Reset).parent_.getD 0 0 = 5 :=
  ⟨rfl, rfl⟩

/-- C6 (amended): in the dense variant, `SetDistance` appends the written
vertex to the affected list but `SetParent` leaves the list unchanged; `Reset`
restores exactly the affected entries to their defaults (distance `INF`,
parent `0`), leaves the other entries untouched, and clears the affected list;
consequently after any sequence of setter calls followed by `Reset`, every
entry written by a `SetDistance` call is back at its default. -/
theorem perf_affected_tracking :
    (∀ (s : OptimizedPerformanceVertexState) (v : VertexId) (d : Nat),
      (s.SetDistance v d).affected_vertices_ = s.affected_vertices_ ++ [v]) ∧
    (∀ (s : OptimizedPerformanceVertexState) (v : VertexId) (p : Nat),
      (s.SetParent v p).affected_vertices_ = s.affected_vertices_) ∧
    (∀ s : OptimizedPerformanceVertexState,
      (s.Reset).affected_vertices_ = [] ∧
      (∀ i ∈ s.affected_vertices_,
        (s.Reset).distances_.getD i INF = INF ∧ (s.Reset).parent_.getD i 0 = 0) ∧
      (∀ i, i ∉ s.affected_vertices_ →
        (s.Reset).distances_.getD i INF = s.distances_.getD i INF ∧
        (s.Reset).parent_.getD i 0 = s.parent_.getD i 0)) ∧
    (∀ (s : OptimizedPerformanceVertexState) (calls : List SetterCall),
      ∀ v ∈ (calls.filter SetterCall.isDist).map SetterCall.vertex,
        ((applySetters s calls).Reset).distances_.getD v INF = INF ∧
        ((applySetters s calls).Reset).parent_.getD v 0 = 0) := by
  refine ⟨fun s v d => rfl, fun s v p => rfl, ?_, ?_⟩
  · intro s
    refine ⟨perfReset_affected s, ?_, ?_⟩
    · intro i hi
      rw [perfReset_dis, perfReset_par, if_pos hi, if_pos hi]
      exact ⟨rfl, rfl⟩
    · intro i hi
      rw [perfReset_dis, perfReset_par, if_neg hi, if_neg hi]
      exact ⟨rfl, rfl⟩
  · intro s calls v hv
    have hmem : v ∈ (applySetters s calls).affected_vertices_ := by
      rw [applySetters_affected]
      exact List.mem_append_right _ hv
    rw [perfReset_dis, perfReset_par, if_pos hmem, if_pos hmem]
    exact ⟨rfl, rfl⟩

/-- Witness for C6 at a concrete state and call sequence. -/
theorem perf_affected_tracking_witness :
    ((applySetters ⟨[0, 0], [INF, INF], []⟩
        [SetterCall.setDist 1 7, SetterCall.setPar 1 0]).Reset).distances_.getD 1 INF =
      INF ∧
    ((applySetters ⟨[0, 0], [INF, INF], []⟩
        [SetterCall.setDist 1 7, SetterCall.setPar 1 0]).Reset).parent_.getD 1 0 = 0 :=
  perf_affected_tracking.2.2.2 ⟨[0, 0], [INF, INF], []⟩
    [SetterCall.setDist 1 7, SetterCall.setPar 1 0] 1 (by decide)

/-! ## Interface projection lemmas -/

theorem memOps_getDistance (m : OptimizedMemoryVertexState) (v : VertexId) :
    memOps.getDistance m v = m.GetDistance v := rfl

theorem memOps_setDistance (m : OptimizedMemoryVertexState) (v : VertexId) (d : Nat) :
    memOps.setDistance m v d = m.SetDistance v d := rfl

theorem memOps_getParent (m : OptimizedMemoryVertexState) (v : VertexId) :
    memOps.getParent m v = m.GetParent v := rfl

theorem memOps_setParent (m : OptimizedMemoryVertexState) (v p : Nat) :
    memOps.setParent m v p = m.SetParent v p := rfl

theorem perfOps_getDistance (p : OptimizedPerformanceVertexState) (v : VertexId) :
    perfOps.getDistance p v = p.GetDistance v := rfl

theorem perfOps_setDistance (p : OptimizedPerformanceVertexState) (v : VertexId) (d : Nat) :
    perfOps.setDistance p v d = p.SetDistance v d := rfl

theorem perfOps_getParent (p : OptimizedPerformanceVertexState) (v : VertexId) :
    perfOps.getParent p v = p.GetParent v := rfl

theorem perfOps_setParent (p : OptimizedPerformanceVertexState) (v u : Nat) :
    perfOps.setParent p v u = p.SetParent v u := rfl

/-! ## State threading through the BFS (claim C5) -/

theorem expandNeighbours_state {σ : Type} (ops : VSOps σ) (valid : VSet)
    (dst c : VertexId) (P : σ → Prop)
    (hpair : ∀ s v d u, P s → P (ops.setParent (ops.setDistance s v d) v u)) :
    ∀ (ws : List VertexId) (st : σ) (q : List VertexId), P st →
      P (expandNeighbours ops valid dst c ws st q).1 := by
  intro ws
  induction ws with
  | nil => intro st q h; simpa [expandNeighbours] using h
  | cons w rest ih =>
      intro st q h
      by_cases hw : w ∈ valid
      · simp only [expandNeighbours, if_pos hw]
        by_cases hrel : (ops.getDistance st c + 1) % U64 < ops.getDistance st w
        · simp only [if_pos hrel]
          by_cases hwd : w = dst
          · simp only [if_pos hwd]
            exact hpair _ _ _ _ h
          · simp only [if_neg hwd]
            exact ih _ _ (hpair _ _ _ _ h)
        · simp only [if_neg hrel]
          by_cases hwd : w = dst
          · simp only [if_pos hwd]; exact h
          · simp only [if_neg hwd]; exact ih _ _ h
      · simp only [expandNeighbours, if_neg hw]
        exact ih _ _ h

theorem bfsLoop_state {σ : Type} (ops : VSOps σ) (g : LabelledGraph) (valid : VSet)
    (dst : VertexId) (P : σ → Prop)
    (hpair : ∀ s v d u, P s → P (ops.setParent (ops.setDistance s v d) v u)) :
    ∀ (fuel : Nat) (st : σ) (q : List VertexId) (reached : Bool), P st →
      P (bfsLoop ops g valid dst fuel st q reached).1 := by
  intro fuel
  induction fuel with
  | zero => intro st q reached h; simpa [bfsLoop] using h
  | succ f ih =>
      intro st q reached h
      by_cases hr : reached = true
      · simp only [bfsLoop, if_pos hr]; exact h
      · cases q with
        | nil => simp only [bfsLoop, if_neg hr]; exact h
        | cons c rest =>
            simp only [bfsLoop, if_neg hr]
            rcases hE : expandNeighbours ops valid dst c (g.neighbours.getD c []) st rest
              with ⟨st', q', reached'⟩
            simp only [hE]
            have hP' : P st' := by
              have := expandNeighbours_state ops valid dst c P hpair
                (g.neighbours.getD c []) st rest h
              rw [hE] at this
              exact this
            exact ih st' q' reached' hP'

theorem spImpl_snd {σ : Type} (ops : VSOps σ) (g : LabelledGraph) (st : σ)
    (src dst : VertexId) (label : Label) :
    (shortestPathImpl ops g st src dst label).2 =
      ops.reset (spImplPreState ops g st src dst label) := by
  unfold shortestPathImpl spImplPreState
  split
  · rfl
  · split
    · rfl
    · split
      · rfl
      · rcases hE : bfsLoop ops g (by assumption) dst (g.neighbours.length + 1)
          (ops.setDistance st src 0) [src] (decide (src = dst)) with ⟨st2, q2, reached⟩
        simp only [hE]
        split <;> rfl

theorem spImplPreState_P {σ : Type} (ops : VSOps σ) (g : LabelledGraph) (st : σ)
    (src dst : VertexId) (label : Label) (P : σ → Prop)
    (hsd : ∀ s v d, P s → P (ops.setDistance s v d))
    (hpair : ∀ s v d u, P s → P (ops.setParent (ops.setDistance s v d) v u))
    (hst : P st) :
    P (spImplPreState ops g st src dst label) := by
  unfold spImplPreState
  split
  · exact hst
  · split
    · exact hst
    · split
      · exact hst
      · exact bfsLoop_state ops g _ dst P hpair _ _ _ _ (hsd _ _ _ hst)

/-! ## Preservation of well-formedness by the mutating operations -/

theorem storeWF_newWith (strat : Strategy) : StoreWF (GraphStore.newWith strat) := by
  cases strat with
  | OPTIMIZED_PERFORMANCE =>
      refine ⟨⟨?_, ?_⟩, ?_⟩
      · intro i w hw
        simp [GraphStore.newWith, List.getD] at hw
      · intro l vs h
        simp [GraphStore.newWith, lmapFind] at h
      · simp [GraphStore.newWith, CleanVState]
  | OPTIMIZED_MEMORY =>
      refine ⟨⟨?_, ?_⟩, ?_⟩
      · intro i w hw
        simp [GraphStore.newWith, List.getD] at hw
      · intro l vs h
        simp [GraphStore.newWith, lmapFind] at h
      · simp [GraphStore.newWith, CleanVState]

theorem storeWF_CreateVertex (s : GraphStore) (h : StoreWF s) :
    StoreWF (s.CreateVertex).2 := by
  obtain ⟨⟨hadj, hlab⟩, hclean⟩ := h
  refine ⟨⟨?_, ?_⟩, ?_⟩
  · intro i w hw
    simp only [GraphStore.CreateVertex, List.length_append, List.length_singleton]
    rw [GraphStore.CreateVertex] at hw
    simp only at hw
    rw [getDl_append_sing] at hw
    split at hw
    · exact Nat.lt_succ_of_lt (hadj i w hw)
    · split at hw
      · exact absurd hw (List.not_mem_nil w)
      · exact absurd hw (List.not_mem_nil w)
  · intro l vs hfind v hv
    rw [GraphStore.CreateVertex] at hfind
    simp only at hfind
    simp only [GraphStore.CreateVertex, List.length_append, List.length_singleton]
    exact Nat.lt_succ_of_lt (hlab l vs hfind v hv)
  · rw [GraphStore.CreateVertex]
    simp only [List.length_append, List.length_singleton]
    cases hvs : s.vertex_state with
    | mem m =>
        rw [hvs] at hclean
        simp only [CleanVState] at hclean
        simp [CleanVState, hclean, OptimizedMemoryVertexState.ProcessVertexAddition]
    | perf p =>
        rw [hvs] at hclean
        simp only [CleanVState] at hclean
        simp only [CleanVState, OptimizedPerformanceVertexState.ProcessVertexAddition,
          hclean]
        rw [List.replicate_succ', List.replicate_succ']

theorem storeWF_CreateEdge (s : GraphStore) (a b : VertexId) (h : StoreWF s) :
    StoreWF (s.CreateEdge a b).2 := by
  obtain ⟨⟨hadj, hlab⟩, hclean⟩ := h
  unfold GraphStore.CreateEdge
  split
  · exact ⟨⟨hadj, hlab⟩, hclean⟩
  · rename_i hex
    push_neg at hex
    obtain ⟨ha, hb⟩ := hex
    refine ⟨⟨?_, ?_⟩, ?_⟩
    · intro i w hw
      simp only [List.length_set]
      simp only at hw
      by_cases hia : i = a
      · subst hia
        rw [getDl_set_self] at hw
        rw [if_pos (show i < s.graph.neighbours.length from ha)] at hw
        rcases List.mem_append.mp hw with hw1 | hw2
        · exact hadj i w hw1
        · rw [List.mem_singleton] at hw2
          subst hw2
          exact hb
      · rw [getDl_set_ne _ (fun hh => hia hh.symm)] at hw
        exact hadj i w hw
    · intro l vs hfind v hv
      simp only at hfind
      simp only [List.length_set]
      exact hlab l vs hfind v hv
    · simp only [CleanVState, List.length_set]
      exact hclean

theorem storeWF_AddLabel (s : GraphStore) (v : VertexId) (label : Label)
    (h : StoreWF s) : StoreWF (s.AddLabel v label).2 := by
  obtain ⟨⟨hadj, hlab⟩, hclean⟩ := h
  unfold GraphStore.AddLabel
  split
  · exact ⟨⟨hadj, hlab⟩, hclean⟩
  · rename_i hex
    rw [not_not] at hex
    refine ⟨⟨hadj, ?_⟩, hclean⟩
    intro l vs hfind w hw
    simp only at hfind
    rw [lmapFind_insertInto] at hfind
    split at hfind
    · cases hfind
      rcases (VSet.mem_insertV _ _ _).mp hw with hw1 | hw2
      · cases hold : lmapFind s.graph.label_to_vertices label with
        | none => rw [hold] at hw1; exact absurd hw1 (List.not_mem_nil w)
        | some oldvs =>
            rw [hold] at hw1
            exact hlab label oldvs hold w hw1
      · subst hw2
        exact hex
    · exact hlab l vs hfind w hw

theorem storeWF_RemoveLabel (s : GraphStore) (v : VertexId) (label : Label)
    (h : StoreWF s) : StoreWF (s.RemoveLabel v label).2 := by
  obtain ⟨⟨hadj, hlab⟩, hclean⟩ := h
  unfold GraphStore.RemoveLabel
  split
  · exact ⟨⟨hadj, hlab⟩, hclean⟩
  · refine ⟨⟨hadj, ?_⟩, hclean⟩
    intro l vs hfind w hw
    simp only at hfind
    rw [lmapFind_eraseFrom] at hfind
    split at hfind
    · cases hold : lmapFind s.graph.label_to_vertices label with
      | none => rw [hold] at hfind; cases hfind
      | some oldvs =>
          rw [hold] at hfind
          simp only [Option.map_some'] at hfind
          cases hfind
          exact hlab label oldvs hold w ((VSet.mem_eraseV _ _ _).mp hw).1
    · exact hlab l vs hfind w hw

theorem storeWF_applyOp (s : GraphStore) (op : StoreOp) (h : StoreWF s) :
    StoreWF (applyOp s op) := by
  cases op with
  | createVertex => exact storeWF_CreateVertex s h
  | createEdge a b => exact storeWF_CreateEdge s a b h
  | addLabel v l => exact storeWF_AddLabel s v l h
  | removeLabel v l => exact storeWF_RemoveLabel s v l h

theorem storeWF_applyOps (ops : List StoreOp) (s : GraphStore) (h : StoreWF s) :
    StoreWF (applyOps s ops) := by
  induction ops generalizing s with
  | nil => exact h
  | cons op rest ih =>
      have heq : applyOps s (op :: rest) = applyOps (applyOp s op) rest := rfl
      rw [heq]
      exact ih _ (storeWF_applyOp s op h)

theorem reachable_wf (s : GraphStore) (hs : Reachable s) : StoreWF s := by
  obtain ⟨strat, ops, rfl⟩ := hs
  exact storeWF_applyOps ops _ (storeWF_newWith strat)

theorem perfUntouched_setDistance (n : Nat) (s : OptimizedPerformanceVertexState)
    (v : VertexId) (d : Nat) (h : PerfUntouched n s) :
    PerfUntouched n (s.SetDistance v d) := by
  obtain ⟨h1, h2, h3⟩ := h
  refine ⟨?_, ?_, ?_⟩
  · simp [OptimizedPerformanceVertexState.SetDistance, h1]
  · simp [OptimizedPerformanceVertexState.SetDistance, h2]
  · intro i hi
    simp only [OptimizedPerformanceVertexState.SetDistance, List.mem_append,
      List.mem_singleton, not_or] at hi ⊢
    obtain ⟨hi1, hi2⟩ := hi
    have hne : ¬ v = i := fun hh => hi2 hh.symm
    rw [getD_set_ne _ hne]
    exact h3 i hi1

/-- `SetParent` does not append to the affected list, so it preserves the
untouched-entries invariant only when the written vertex is already affected.
During the BFS this always holds: every `SetParent(w, ·)` is immediately
preceded by a `SetDistance(w, ·)` on the same vertex (`graph_store.cpp` lines
131-132), which appends `w`. -/
theorem perfUntouched_setParent (n : Nat) (s : OptimizedPerformanceVertexState)
    (v p : Nat) (hv : v ∈ s.affected_vertices_) (h : PerfUntouched n s) :
    PerfUntouched n (s.SetParent v p) := by
  obtain ⟨h1, h2, h3⟩ := h
  refine ⟨?_, ?_, ?_⟩
  · simp [OptimizedPerformanceVertexState.SetParent, h1]
  · simp [OptimizedPerformanceVertexState.SetParent, h2]
  · intro i hi
    have hi1 : i ∉ s.affected_vertices_ := hi
    have hne : ¬ v = i := fun hh => hi1 (hh ▸ hv)
    constructor
    · exact (h3 i hi1).1
    · show (s.parent_.set v p).getD i 0 = 0
      rw [getD_set_ne _ hne]
      exact (h3 i hi1).2

theorem perfUntouched_clean (n : Nat) :
    PerfUntouched n ⟨List.replicate n 0, List.replicate n INF, []⟩ := by
  refine ⟨by simp, by simp, ?_⟩
  intro i _
  constructor
  · rw [getD_replicate]
    split <;> rfl
  · rw [getD_replicate]
    split <;> rfl

theorem perfReset_of_untouched (n : Nat) (s : OptimizedPerformanceVertexState)
    (h : PerfUntouched n s) :
    s.Reset = ⟨List.replicate n 0, List.replicate n INF, []⟩ := by
  obtain ⟨h1, h2, h3⟩ := h
  have e1 : (s.Reset).parent_ = List.replicate n 0 := by
    apply eq_replicate_of_getD
    · rw [(perfReset_lengths s).1, h2]
    · intro i _
      rw [perfReset_par]
      by_cases hi : i ∈ s.affected_vertices_
      · rw [if_pos hi]
      · rw [if_neg hi]
        exact (h3 i hi).2
  have e2 : (s.Reset).distances_ = List.replicate n INF := by
    apply eq_replicate_of_getD
    · rw [(perfReset_lengths s).2, h1]
    · intro i _
      rw [perfReset_dis]
      by_cases hi : i ∈ s.affected_vertices_
      · rw [if_pos hi]
      · rw [if_neg hi]
        exact (h3 i hi).1
  have e3 : (s.Reset).affected_vertices_ = [] := perfReset_affected s
  rw [show s.Reset = ⟨(s.Reset).parent_, (s.Reset).distances_,
    (s.Reset).affected_vertices_⟩ from rfl, e1, e2, e3]

/-- C5: after every call to `ShortestPath` on a reachable store — whichever
exit path fires — the traversal state is fully reset: empty maps in the
sparse variant, all-default entries and an empty affected list in the dense
variant; moreover the state was already reset before the call (the property
is an invariant of the store). -/
theorem traversal_state_fully_reset (s : GraphStore) (hs : Reachable s) :
    CleanVState s.graph.neighbours.length s.vertex_state ∧
    ∀ (src dst : VertexId) (label : Label),
      CleanVState s.graph.neighbours.length
        ((s.ShortestPath src dst label).2).vertex_state := by
  have hwf := reachable_wf s hs
  refine ⟨hwf.2, ?_⟩
  intro src dst label
  obtain ⟨g, vs⟩ := s
  obtain ⟨hgwf, hclean⟩ := hwf
  cases vs with
  | mem m =>
      have hst : ((GraphStore.mk g (.mem m)).ShortestPath src dst label).2.vertex_state
          = .mem (shortestPathImpl memOps g m src dst label).2 := rfl
      rw [hst, spImpl_snd]
      rfl
  | perf p =>
      have hst : ((GraphStore.mk g (.perf p)).ShortestPath src dst label).2.vertex_state
          = .perf (shortestPathImpl perfOps g p src dst label).2 := rfl
      rw [hst, spImpl_snd]
      simp only [CleanVState] at hclean
      have hp0 : PerfUntouched g.neighbours.length p := by
        rw [hclean]
        exact perfUntouched_clean _
      have hP : PerfUntouched g.neighbours.length
          (spImplPreState perfOps g p src dst label) := by
        refine spImplPreState_P perfOps g p src dst label _ ?_ ?_ hp0
        · intro s v d h
          exact perfUntouched_setDistance _ s v d h
        · intro s v d u h
          refine perfUntouched_setParent _ _ v u ?_
            (perfUntouched_setDistance _ s v d h)
          show v ∈ s.affected_vertices_ ++ [v]
          exact List.mem_append_right _ (List.mem_singleton_self v)
      show (spImplPreState perfOps g p src dst label).Reset = _
      exact perfReset_of_untouched _ _ hP

/-- Witness for C5 at a concrete reachable store and query. -/
theorem traversal_state_fully_reset_witness :
    CleanVState
      ((applyOps (GraphStore.newWith .OPTIMIZED_PERFORMANCE)
          [.createVertex, .addLabel 0 "a"]).ShortestPath 0 0 "a").2.graph.neighbours.length
      ((applyOps (GraphStore.newWith .OPTIMIZED_PERFORMANCE)
          [.createVertex, .addLabel 0 "a"]).ShortestPath 0 0 "a").2.vertex_state := by
  have h := (traversal_state_fully_reset
    (applyOps (GraphStore.newWith .OPTIMIZED_PERFORMANCE) [.createVertex, .addLabel 0 "a"])
    ⟨.OPTIMIZED_PERFORMANCE, [.createVertex, .addLabel 0 "a"], rfl⟩).2 0 0 "a"
  exact h

/-! ## Numeric facts about the `uint64` sentinel -/

theorem INF_pos : 0 < INF := by decide

theorem INF_lt_U64 : INF < U64 := by decide

/-! ## Sparse-state operation lemmas -/

theorem mdist_SetDistance (m : OptimizedMemoryVertexState) (v : VertexId) (d : Nat)
    (w : VertexId) :
    mdist (m.SetDistance v d) w = if w = v then d else mdist m w := by
  unfold mdist OptimizedMemoryVertexState.GetDistance OptimizedMemoryVertexState.SetDistance
  simp only
  rw [alistFind_alistSet]
  split <;> rfl

theorem mdist_SetParent (m : OptimizedMemoryVertexState) (v p : Nat) (w : VertexId) :
    mdist (m.SetParent v p) w = mdist m w := rfl

theorem mpar_SetParent (m : OptimizedMemoryVertexState) (v p : Nat) (w : VertexId) :
    mpar (m.SetParent v p) w = if w = v then some p else mpar m w := by
  unfold mpar OptimizedMemoryVertexState.SetParent
  simp only
  rw [alistFind_alistSet]

theorem mpar_SetDistance (m : OptimizedMemoryVertexState) (v d : Nat) (w : VertexId) :
    mpar (m.SetDistance v d) w = mpar m w := rfl

theorem memGetDistance_eq_mdist (m : OptimizedMemoryVertexState) (v : VertexId) :
    m.GetDistance v = mdist m v := rfl

theorem memGetParent_eq_mpar (m : OptimizedMemoryVertexState) (v : VertexId) :
    m.GetParent v = (mpar m v).getD INF := rfl

/-! ## Reachability lemmas -/

theorem reachN_src_mem {g : LabelledGraph} {valid : VSet} {src : VertexId}
    {k : Nat} {v : VertexId} (h : ReachN g valid src k v) : src ∈ valid := by
  induction h with
  | refl h => exact h
  | step _ _ _ ih => exact ih

theorem reachN_valid {g : LabelledGraph} {valid : VSet} {src : VertexId}
    {k : Nat} {v : VertexId} (h : ReachN g valid src k v) : v ∈ valid := by
  cases h with
  | refl h => exact h
  | step _ _ h => exact h

theorem reachN_zero {g : LabelledGraph} {valid : VSet} {src : VertexId}
    {v : VertexId} (h : ReachN g valid src 0 v) : v = src := by
  cases h
  rfl

/-! ## Discovered-count lemmas -/

theorem Dcard_le (n : Nat) (dist : VertexId → Nat) : Dcard n dist ≤ n := by
  unfold Dcard
  calc ((Finset.range n).filter (fun v => dist v ≠ INF)).card
      ≤ (Finset.range n).card := Finset.card_filter_le _ _
    _ = n := Finset.card_range n

theorem Dcard_congr (n : Nat) (f h : VertexId → Nat) (hfg : ∀ v, v < n → f v = h v) :
    Dcard n f = Dcard n h := by
  unfold Dcard
  congr 1
  apply Finset.filter_congr
  intro x hx
  rw [hfg x (Finset.mem_range.mp hx)]

theorem Dcard_relax (n : Nat) (dist : VertexId → Nat) (v : VertexId) (dnew : Nat)
    (hv : v < n) (hfresh : dist v = INF) (hd : dnew ≠ INF) :
    Dcard n (fun w => if w = v then dnew else dist w) = Dcard n dist + 1 := by
  unfold Dcard
  have hset : (Finset.range n).filter (fun w => (if w = v then dnew else dist w) ≠ INF)
      = insert v ((Finset.range n).filter (fun w => dist w ≠ INF)) := by
    ext w
    simp only [Finset.mem_filter, Finset.mem_insert, Finset.mem_range]
    by_cases hwv : w = v
    · subst hwv
      simp [hd, hv]
    · simp [hwv]
  rw [hset, Finset.card_insert_of_not_mem (by simp [hfresh])]

/-! ## Step-bookkeeping lemmas -/

theorem stepSim_refl (n : Nat) (m : OptimizedMemoryVertexState) : StepSim n m m [] :=
  ⟨fun _ _ => rfl, by simp, by simp, List.nodup_nil, by simp⟩

theorem stepSim_trans (n : Nat) (m1 m2 m3 : OptimizedMemoryVertexState)
    (tr tr' : List VertexId) (h1 : StepSim n m1 m2 tr) (h2 : StepSim n m2 m3 tr') :
    StepSim n m1 m3 (tr ++ tr') := by
  refine ⟨?_, ?_, ?_, ?_, ?_⟩
  · intro v hv
    rw [h2.mono_eq v (by rw [h1.mono_eq v hv]; exact hv), h1.mono_eq v hv]
  · intro v hv
    rcases List.mem_append.mp hv with hv1 | hv2
    · exact h1.fresh v hv1
    · by_contra hne
      have hd2 := h2.fresh v hv2
      rw [h1.mono_eq v hne] at hd2
      exact hne hd2
  · intro v hv
    rcases List.mem_append.mp hv with hv1 | hv2
    · have := h1.disc_new v hv1
      rw [h2.mono_eq v this]
      exact this
    · exact h2.disc_new v hv2
  · rw [List.nodup_append]
    refine ⟨h1.nodup, h2.nodup, ?_⟩
    intro v hv1 hv2
    exact absurd (h1.disc_new v hv1) (by simpa using h2.fresh v hv2)
  · rw [h2.dcard, h1.dcard, List.length_append]
    ring

theorem stepSim_relax (n : Nat) (m : OptimizedMemoryVertexState) (w c dnew : Nat)
    (hw : w < n) (hfresh : mdist m w = INF) (hd : dnew ≠ INF) :
    StepSim n m ((m.SetDistance w dnew).SetParent w c) [w] := by
  have hdist : ∀ v, mdist ((m.SetDistance w dnew).SetParent w c) v =
      if v = w then dnew else mdist m v := by
    intro v
    rw [mdist_SetParent, mdist_SetDistance]
  refine ⟨?_, ?_, ?_, List.nodup_singleton w, ?_⟩
  · intro v hv
    rw [hdist v, if_neg (fun hh => hv (by rw [hh]; exact hfresh))]
  · intro v hv
    rw [List.mem_singleton] at hv
    subst hv
    exact hfresh
  · intro v hv
    rw [List.mem_singleton] at hv
    subst hv
    rw [hdist v, if_pos rfl]
    exact hd
  · rw [Dcard_congr n _ (fun v => if v = w then dnew else mdist m v)
      (fun v _ => hdist v), Dcard_relax n (mdist m) w dnew hw hfresh hd]
    simp

/-! ## Level bound -/

theorem level_lt_n (n : Nat) (dist : VertexId → Nat) (d : Nat)
    (hlev : ∀ j, j ≤ d → ∃ v, dist v = j ∧ dist v ≠ INF)
    (hlt : ∀ v, dist v ≠ INF → v < n) : d < n := by
  classical
  have hch : ∀ j : Fin (d + 1), ∃ v, dist v = j.1 ∧ v < n := by
    intro j
    obtain ⟨v, hv1, hv2⟩ := hlev j.1 (Nat.lt_succ_iff.mp j.2)
    exact ⟨v, hv1, hlt v hv2⟩
  choose f hf1 hf2 using hch
  have hinj : Function.Injective (fun j : Fin (d + 1) => (⟨f j, hf2 j⟩ : Fin n)) := by
    intro j1 j2 hj
    have : f j1 = f j2 := congrArg Fin.val hj
    apply Fin.ext
    rw [← hf1 j1, ← hf1 j2, this]
  have := Fintype.card_le_of_injective _ hinj
  simpa using this

/-! ## Queue facts from the level split -/

theorem split_queue_bounds (dist : VertexId → Nat) (q : List VertexId) (d : Nat)
    (h : ∃ q1 q2, q = q1 ++ q2 ∧ (∀ v ∈ q1, dist v = d) ∧ (∀ v ∈ q2, dist v = d + 1)) :
    ∀ v ∈ q, d ≤ dist v ∧ dist v ≤ d + 1 := by
  obtain ⟨q1, q2, rfl, h1, h2⟩ := h
  intro v hv
  rcases List.mem_append.mp hv with hv1 | hv2
  · rw [h1 v hv1]
    exact ⟨Nat.le_refl d, Nat.le_succ d⟩
  · rw [h2 v hv2]
    exact ⟨Nat.le_succ d, Nat.le_refl _⟩

/-! ## Releveling: the front of the queue sits at the current level -/

theorem bfsInv_relevel (g : LabelledGraph) (valid : VSet) (src : VertexId)
    (dist : VertexId → Nat) (pget : VertexId → Option Nat)
    (c : VertexId) (rest : List VertexId) (d : Nat)
    (hInv : BfsInv g valid src dist pget (c :: rest) d) :
    ∃ d', BfsInv g valid src dist pget (c :: rest) d' ∧ dist c = d' := by
  obtain ⟨q1, q2, hq, h1, h2⟩ := hInv.queue_split
  cases q1 with
  | cons x q1' =>
      have hcx : c = x ∧ rest = q1' ++ q2 := by
        rw [List.cons_append] at hq
        exact ⟨(List.cons.injEq _ _ _ _ ▸ hq).1, (List.cons.injEq _ _ _ _ ▸ hq).2⟩
      refine ⟨d, hInv, ?_⟩
      rw [hcx.1]
      exact h1 x (List.mem_cons_self x q1')
  | nil =>
      rw [List.nil_append] at hq
      have hall : ∀ v ∈ c :: rest, dist v = d + 1 := by
        intro v hv
        exact h2 v (hq ▸ hv)
      have hc : dist c = d + 1 := hall c (List.mem_cons_self c rest)
      refine ⟨d + 1, ?_, hc⟩
      refine ⟨hInv.core, ?_, ?_, hInv.expanded,
        ⟨c :: rest, [], by simp, hall, by simp⟩, hInv.queue_disc, ?_⟩
      · intro v hv
        exact Nat.le_succ_of_le (hInv.disc_le v hv)
      · intro v k hk hreach
        rcases Nat.lt_succ_iff_lt_or_eq.mp (Nat.lt_succ_of_le hk) with hk1 | hk1
        · exact hInv.level_complete v k (Nat.lt_succ_iff.mp hk1) hreach
        · subst hk1
          cases hreach with
          | step hu hedge hval =>
              rename_i u
              have hud : dist u ≠ INF := hInv.level_complete u d (Nat.le_refl _) hu
              have hmin : dist u ≤ d := hInv.core.min_of_disc u hud d hu
              have huq : u ∉ c :: rest := by
                intro huq
                have := hall u huq
                omega
              exact (hInv.expanded u hud huq _ hedge hval).1
      · intro j hj
        rcases Nat.lt_succ_iff_lt_or_eq.mp (Nat.lt_succ_of_le hj) with hj1 | hj1
        · exact hInv.levels j (Nat.lt_succ_iff.mp hj1)
        · subst hj1
          exact ⟨c, hc, hInv.queue_disc c (List.mem_cons_self c rest)⟩

/-- Convert the loop invariant at a pop (`q = c :: rest`, `dist c = d`) into
the inner-expansion invariant over `rest`. -/
theorem bfsInv_to_expInv (g : LabelledGraph) (valid : VSet) (src dst : VertexId)
    (dist : VertexId → Nat) (pget : VertexId → Option Nat)
    (c : VertexId) (rest : List VertexId) (d : Nat)
    (hInv : BfsInv g valid src dist pget (c :: rest) d)
    (hc : dist c = d) (hdst : dist dst = INF) :
    ExpInv g valid src dst c dist pget rest d := by
  obtain ⟨q1, q2, hq, h1, h2⟩ := hInv.queue_split
  have hsplit : ∃ q1 q2, rest = q1 ++ q2 ∧ (∀ v ∈ q1, dist v = d) ∧
      (∀ v ∈ q2, dist v = d + 1) := by
    cases q1 with
    | nil =>
        rw [List.nil_append] at hq
        have : dist c = d + 1 := h2 c (hq ▸ List.mem_cons_self c rest)
        omega
    | cons x q1' =>
        rw [List.cons_append] at hq
        have hx := List.cons.injEq _ _ _ _ ▸ hq
        exact ⟨q1', q2, hx.2, fun v hv => h1 v (List.mem_cons_of_mem x hv), h2⟩
  refine ⟨hInv.core, hInv.disc_le, hInv.level_complete, ?_, hsplit, ?_, hInv.levels,
    hc, hdst⟩
  · intro u hu huq huc w hw hwv
    have : u ∉ c :: rest := by
      intro hmem
      rcases List.mem_cons.mp hmem with h | h
      · exact huc h
      · exact huq h
    exact hInv.expanded u hu this w hw hwv
  · intro v hv
    exact hInv.queue_disc v (List.mem_cons_of_mem c hv)

/-! ## Preservation of the expansion invariant by one relaxation -/

theorem relax_preserves (g : LabelledGraph) (valid : VSet) (src dst c : VertexId)
    (d : Nat) (hn : g.neighbours.length < INF)
    (hd : d < g.neighbours.length)
    (hvalid : ∀ v ∈ valid, v < g.neighbours.length)
    (m : OptimizedMemoryVertexState) (q : List VertexId) (w : VertexId)
    (hw : w ∈ valid) (hedge : w ∈ g.neighbours.getD c [])
    (hfresh : mdist m w = INF)
    (hJ : ExpInv g valid src dst c (mdist m) (mpar m) q d) :
    DistCore g valid src (mdist ((m.SetDistance w (d + 1)).SetParent w c))
      (mpar ((m.SetDistance w (d + 1)).SetParent w c)) ∧
    mdist ((m.SetDistance w (d + 1)).SetParent w c) w = d + 1 ∧
    (w ≠ dst → ExpInv g valid src dst c
      (mdist ((m.SetDistance w (d + 1)).SetParent w c))
      (mpar ((m.SetDistance w (d + 1)).SetParent w c)) (q ++ [w]) d) := by
  have hip := INF_pos
  have hd1 : ∀ v, mdist ((m.SetDistance w (d + 1)).SetParent w c) v =
      if v = w then d + 1 else mdist m v := fun v => by
    rw [mdist_SetParent, mdist_SetDistance]
  have hp1 : ∀ v, mpar ((m.SetDistance w (d + 1)).SetParent w c) v =
      if v = w then some c else mpar m v := fun v => by
    rw [mpar_SetParent]
    by_cases hvw : v = w
    · rw [if_pos hvw, if_pos hvw]
    · rw [if_neg hvw, if_neg hvw, mpar_SetDistance]
  have hdne : d + 1 ≠ INF := by omega
  have hwn : w < g.neighbours.length := hvalid w hw
  have hcd : mdist m c = d := hJ.dist_c
  have hcdisc : mdist m c ≠ INF := by rw [hcd]; omega
  have hcw : c ≠ w := fun hh => hcdisc (by rw [hh]; exact hfresh)
  have hsw : src ≠ w := by
    intro hh
    have h0 := hJ.core.dist_src
    rw [hh] at h0
    rw [h0] at hfresh
    omega
  have hdisc1 : ∀ v, mdist ((m.SetDistance w (d + 1)).SetParent w c) v ≠ INF ↔
      (v = w ∨ mdist m v ≠ INF) := by
    intro v
    rw [hd1 v]
    by_cases hvw : v = w
    · simp [hvw, hdne]
    · simp [hvw]
  have hmono : ∀ v, v ≠ w →
      mdist ((m.SetDistance w (d + 1)).SetParent w c) v = mdist m v := fun v hv => by
    rw [hd1 v, if_neg hv]
  have hcore : DistCore g valid src (mdist ((m.SetDistance w (d + 1)).SetParent w c))
      (mpar ((m.SetDistance w (d + 1)).SetParent w c)) := by
    refine ⟨?_, ?_, ?_, ?_, ?_, ?_⟩
    · rw [hmono src hsw]
      exact hJ.core.dist_src
    · intro v hv
      rcases (hdisc1 v).mp hv with rfl | hv2
      · exact hwn
      · exact hJ.core.disc_lt v hv2
    · intro v hv
      rcases (hdisc1 v).mp hv with rfl | hv2
      · exact hw
      · exact hJ.core.disc_valid v hv2
    · intro v hv
      by_cases hvw : v = w
      · subst hvw
        rw [hd1 v, if_pos rfl]
        have hrc : ReachN g valid src d c := by
          have := hJ.core.reach_of_disc c hcdisc
          rwa [hcd] at this
        exact ReachN.step hrc hedge hw
      · rw [hmono v hvw]
        exact hJ.core.reach_of_disc v (((hdisc1 v).mp hv).resolve_left hvw)
    · intro v hv k hk
      by_cases hvw : v = w
      · subst hvw
        rw [hd1 v, if_pos rfl]
        cases k with
        | zero => exact absurd (reachN_zero hk) (fun hh => hsw hh.symm)
        | succ j =>
            cases hk with
            | step hu hedge' hval' =>
                rename_i u
                by_cases hud : mdist m u ≠ INF
                · have hminu : mdist m u ≤ j := hJ.core.min_of_disc u hud j hu
                  by_cases huq : u ∈ q
                  · have hb := split_queue_bounds (mdist m) q d hJ.queue_split u huq
                    omega
                  · by_cases huc : u = c
                    · subst huc
                      rw [hcd] at hminu
                      omega
                    · have := (hJ.expanded' u hud huq huc v hedge' hw).1
                      exact absurd hfresh this
                · have hjd : ¬ j ≤ d :=
                    fun hj => hud (hJ.level_complete u j hj hu)
                  omega
      · rw [hmono v hvw]
        exact hJ.core.min_of_disc v (((hdisc1 v).mp hv).resolve_left hvw) k hk
    · intro v hv hvsrc
      by_cases hvw : v = w
      · subst hvw
        refine ⟨c, ?_, ?_, ?_, hedge⟩
        · rw [hp1 v, if_pos rfl]
        · rw [hmono c hcw]
          exact hcdisc
        · rw [hd1 v, if_pos rfl, hmono c hcw, hcd]
      · obtain ⟨u, hu1, hu2, hu3, hu4⟩ := hJ.core.parent_chain v
          (((hdisc1 v).mp hv).resolve_left hvw) hvsrc
        have huw : u ≠ w := fun hh => hu2 (by rw [hh]; exact hfresh)
        refine ⟨u, ?_, ?_, ?_, hu4⟩
        · rw [hp1 v, if_neg hvw]
          exact hu1
        · rw [hmono u huw]
          exact hu2
        · rw [hmono v hvw, hmono u huw]
          exact hu3
  refine ⟨hcore, by rw [hd1 w, if_pos rfl], ?_⟩
  intro hwdst
  refine ⟨hcore, ?_, ?_, ?_, ?_, ?_, ?_, ?_, ?_⟩
  · intro v hv
    by_cases hvw : v = w
    · subst hvw
      rw [hd1 v, if_pos rfl]
    · rw [hmono v hvw]
      exact hJ.disc_le v (((hdisc1 v).mp hv).resolve_left hvw)
  · intro v k hk hreach
    exact (hdisc1 v).mpr (Or.inr (hJ.level_complete v k hk hreach))
  · intro u hu huq huc w' hw' hw'v
    have huw : u ≠ w := fun hh =>
      huq (by rw [hh]; exact List.mem_append_right q (List.mem_singleton_self w))
    have huq0 : u ∉ q := fun hh => huq (List.mem_append_left _ hh)
    have hu0 : mdist m u ≠ INF := ((hdisc1 u).mp hu).resolve_left huw
    obtain ⟨he1, he2⟩ := hJ.expanded' u hu0 huq0 huc w' hw' hw'v
    have hw'w : w' ≠ w := fun hh => he1 (by rw [hh]; exact hfresh)
    constructor
    · exact (hdisc1 w').mpr (Or.inr he1)
    · rw [hmono u huw, hmono w' hw'w]
      exact he2
  · obtain ⟨q1, q2, rfl, h1, h2⟩ := hJ.queue_split
    refine ⟨q1, q2 ++ [w], by rw [List.append_assoc], ?_, ?_⟩
    · intro v hv
      have hvd : mdist m v = d := h1 v hv
      have hvw : v ≠ w := by
        intro hh
        rw [hh, hfresh] at hvd
        omega
      rw [hmono v hvw]
      exact hvd
    · intro v hv
      rcases List.mem_append.mp hv with hv1 | hv2
      · have hvd : mdist m v = d + 1 := h2 v hv1
        have hvw : v ≠ w := by
          intro hh
          rw [hh, hfresh] at hvd
          omega
        rw [hmono v hvw]
        exact hvd
      · rw [List.mem_singleton] at hv2
        subst hv2
        rw [hd1 v, if_pos rfl]
  · intro v hv
    rcases List.mem_append.mp hv with hv1 | hv2
    · exact (hdisc1 v).mpr (Or.inr (hJ.queue_disc v hv1))
    · rw [List.mem_singleton] at hv2
      subst hv2
      exact (hdisc1 v).mpr (Or.inl rfl)
  · intro j hj
    obtain ⟨v, hv1, hv2⟩ := hJ.levels j hj
    have hvw : v ≠ w := fun hh => hv2 (by rw [hh]; exact hfresh)
    refine ⟨v, ?_, ?_⟩
    · rw [hmono v hvw]
      exact hv1
    · rw [hmono v hvw]
      exact hv2
  · rw [hmono c hcw]
    exact hcd
  · have hdw : dst ≠ w := fun hh => hwdst hh.symm
    rw [hmono dst hdw]
    exact hJ.dst_undisc

/-! ## Master lemma for the inner neighbour-expansion loop -/

theorem expandNeighbours_master (g : LabelledGraph) (valid : VSet) (src dst c : VertexId)
    (d : Nat) (hn : g.neighbours.length < INF) (hd : d < g.neighbours.length)
    (hvalid : ∀ v ∈ valid, v < g.neighbours.length) :
    ∀ (ws done : List VertexId) (m : OptimizedMemoryVertexState) (q : List VertexId)
      (m' : OptimizedMemoryVertexState) (q' : List VertexId) (r : Bool)
      (tr : List VertexId),
      g.neighbours.getD c [] = done ++ ws →
      (∀ w ∈ done, w ∈ valid → mdist m w ≠ INF ∧ mdist m w ≤ d + 1) →
      ExpInv g valid src dst c (mdist m) (mpar m) q d →
      expandNeighboursTr memOps valid dst c ws m q = (m', q', r, tr) →
      DistCore g valid src (mdist m') (mpar m') ∧
      StepSim g.neighbours.length m m' tr ∧
      q' = q ++ tr ∧
      (∀ v ∈ tr, v ∈ valid) ∧
      (r = true → mdist m' dst ≠ INF) ∧
      (r = false → BfsInv g valid src (mdist m') (mpar m') q' d ∧
        mdist m' dst = INF) := by
  intro ws
  induction ws with
  | nil =>
      intro done m q m' q' r tr hfull hdone hJ heq
      simp only [expandNeighboursTr] at heq
      cases heq
      refine ⟨hJ.core, stepSim_refl _ m, by simp, by simp, ?_, ?_⟩
      · intro hfalse
        cases hfalse
      · intro _
        constructor
        · refine ⟨hJ.core, hJ.disc_le, hJ.level_complete, ?_, hJ.queue_split,
            hJ.queue_disc, hJ.levels⟩
          intro u hu huq w hw hwv
          by_cases huc : u = c
          · subst huc
            rw [List.append_nil] at hfull
            rw [hfull] at hw
            obtain ⟨hh1, hh2⟩ := hdone w hw hwv
            rw [hJ.dist_c]
            exact ⟨hh1, hh2⟩
          · exact hJ.expanded' u hu huq huc w hw hwv
        · exact hJ.dst_undisc
  | cons w ws' ih =>
      intro done m q m' q' r tr hfull hdone hJ heq
      have hfull1 : g.neighbours.getD c [] = (done ++ [w]) ++ ws' := by
        rw [hfull]
        simp
      by_cases hw : w ∈ valid
      · have hgc : memOps.getDistance m c = d := hJ.dist_c
        have hmod : (memOps.getDistance m c + 1) % U64 = d + 1 := by
          rw [hgc]
          exact Nat.mod_eq_of_lt (by have := INF_lt_U64; omega)
        by_cases hrel : d + 1 < memOps.getDistance m w
        · have hfreshw : mdist m w = INF := by
            by_contra hnd
            have := hJ.disc_le w hnd
            have hrw : memOps.getDistance m w = mdist m w := rfl
            rw [hrw] at hrel
            omega
          have hedge : w ∈ g.neighbours.getD c [] := by
            rw [hfull]
            exact List.mem_append_right done (List.mem_cons_self w ws')
          obtain ⟨hcore1, hdw1, hJ1⟩ :=
            relax_preserves g valid src dst c d hn hd hvalid m q w hw hedge hfreshw hJ
          have hstep : StepSim g.neighbours.length m
              ((m.SetDistance w (d + 1)).SetParent w c) [w] :=
            stepSim_relax _ m w c (d + 1) (hvalid w hw) hfreshw (by omega)
          have hmono1 := hstep.mono_eq
          by_cases hwdst : w = dst
          · simp only [expandNeighboursTr, if_pos hw, hmod, if_pos hrel, if_pos hwdst,
              memOps_setDistance, memOps_setParent] at heq
            cases heq
            refine ⟨hcore1, hstep, rfl, ?_, ?_, ?_⟩
            · intro v hv
              rw [List.mem_singleton] at hv
              subst hv
              exact hw
            · intro _
              rw [← hwdst, hdw1]
              omega
            · intro hfalse
              cases hfalse
          · rcases hrec : expandNeighboursTr memOps valid dst c ws'
                ((m.SetDistance w (d + 1)).SetParent w c) (q ++ [w])
              with ⟨m2, q2, r2, tr2⟩
            simp only [expandNeighboursTr, if_pos hw, hmod, if_pos hrel, if_neg hwdst,
              memOps_setDistance, memOps_setParent, hrec] at heq
            cases heq
            have hdone1 : ∀ w' ∈ done ++ [w], w' ∈ valid →
                mdist ((m.SetDistance w (d + 1)).SetParent w c) w' ≠ INF ∧
                mdist ((m.SetDistance w (d + 1)).SetParent w c) w' ≤ d + 1 := by
              intro w' hw' hw'v
              by_cases hww' : w' = w
              · subst hww'
                rw [hdw1]
                omega
              · rcases List.mem_append.mp hw' with hw'1 | hw'2
                · obtain ⟨hh1, hh2⟩ := hdone w' hw'1 hw'v
                  rw [hmono1 w' hh1]
                  exact ⟨hh1, hh2⟩
                · rw [List.mem_singleton] at hw'2
                  exact absurd hw'2 hww'
            obtain ⟨hc2, hs2, hq2, htv2, hr2t, hr2f⟩ :=
              ih (done ++ [w]) ((m.SetDistance w (d + 1)).SetParent w c) (q ++ [w])
                m' q' r tr2 hfull1 hdone1 (hJ1 hwdst) hrec
            refine ⟨hc2, ?_, ?_, ?_, hr2t, hr2f⟩
            · have := stepSim_trans _ m _ m' [w] tr2 hstep hs2
              simpa using this
            · rw [hq2, List.append_assoc]
            · intro v hv
              rcases List.mem_cons.mp hv with rfl | hv2
              · exact hw
              · exact htv2 v hv2
        · have hdiscw : mdist m w ≠ INF := by
            intro hisinf
            have hrw : memOps.getDistance m w = mdist m w := rfl
            rw [hrw, hisinf] at hrel
            omega
          by_cases hwdst : w = dst
          · exfalso
            rw [hwdst] at hdiscw
            exact hdiscw hJ.dst_undisc
          · rcases hrec : expandNeighboursTr memOps valid dst c ws' m q
              with ⟨m2, q2, r2, tr2⟩
            simp only [expandNeighboursTr, if_pos hw, hmod, if_neg hrel, if_neg hwdst,
              hrec] at heq
            cases heq
            have hdone1 : ∀ w' ∈ done ++ [w], w' ∈ valid →
                mdist m w' ≠ INF ∧ mdist m w' ≤ d + 1 := by
              intro w' hw' hw'v
              rcases List.mem_append.mp hw' with hw'1 | hw'2
              · exact hdone w' hw'1 hw'v
              · rw [List.mem_singleton] at hw'2
                subst hw'2
                have hrw : memOps.getDistance m w' = mdist m w' := rfl
                rw [hrw] at hrel
                exact ⟨hdiscw, by omega⟩
            exact ih (done ++ [w]) m q m' q' r tr2 hfull1 hdone1 hJ hrec
      · rcases hrec : expandNeighboursTr memOps valid dst c ws' m q
          with ⟨m2, q2, r2, tr2⟩
        simp only [expandNeighboursTr, if_neg hw, hrec] at heq
        cases heq
        have hdone1 : ∀ w' ∈ done ++ [w], w' ∈ valid →
            mdist m w' ≠ INF ∧ mdist m w' ≤ d + 1 := by
          intro w' hw' hw'v
          rcases List.mem_append.mp hw' with hw'1 | hw'2
          · exact hdone w' hw'1 hw'v
          · rw [List.mem_singleton] at hw'2
            subst hw'2
            exact absurd hw'v hw
        exact ih (done ++ [w]) m q m' q' r tr hfull1 hdone1 hJ hrec

/-! ## Unfolding lemmas for the instrumented BFS loop -/

theorem bfsLoopTr_reached {σ : Type} (ops : VSOps σ) (g : LabelledGraph) (valid : VSet)
    (dst : VertexId) (fuel : Nat) (st : σ) (q : List VertexId) :
    bfsLoopTr ops g valid dst fuel st q true = (st, q, true, []) := by
  cases fuel <;> rfl

theorem bfsLoopTr_succ_false_nil {σ : Type} (ops : VSOps σ) (g : LabelledGraph)
    (valid : VSet) (dst : VertexId) (f : Nat) (st : σ) :
    bfsLoopTr ops g valid dst (f + 1) st [] false = (st, [], false, []) := rfl

theorem bfsLoopTr_succ_false_cons {σ : Type} (ops : VSOps σ) (g : LabelledGraph)
    (valid : VSet) (dst : VertexId) (f : Nat) (st : σ) (c : VertexId)
    (rest : List VertexId) :
    bfsLoopTr ops g valid dst (f + 1) st (c :: rest) false =
      (let x := expandNeighboursTr ops valid dst c (g.neighbours.getD c []) st rest
       let y := bfsLoopTr ops g valid dst f x.1 x.2.1 x.2.2.1
       (y.1, y.2.1, y.2.2.1, x.2.2.2 ++ y.2.2.2)) := by
  show (let z := expandNeighboursTr ops valid dst c (g.neighbours.getD c []) st rest
        match z with
        | (st', q', reached', tr) =>
          match bfsLoopTr ops g valid dst f st' q' reached' with
          | (st'', q'', r'', tr'') => (st'', q'', r'', tr ++ tr'')) = _
  rcases expandNeighboursTr ops valid dst c (g.neighbours.getD c []) st rest
    with ⟨a, b, e, t⟩
  rcases bfsLoopTr ops g valid dst f a b e with ⟨a2, b2, e2, t2⟩
  rfl

/-! ## Master lemma for the BFS `while` loop -/

theorem bfsLoop_master (g : LabelledGraph) (valid : VSet) (src dst : VertexId)
    (hn : g.neighbours.length < INF)
    (hvalid : ∀ v ∈ valid, v < g.neighbours.length) :
    ∀ (fuel : Nat) (m : OptimizedMemoryVertexState) (q : List VertexId) (d : Nat)
      (m' : OptimizedMemoryVertexState) (q' : List VertexId) (r : Bool)
      (tr : List VertexId),
      BfsInv g valid src (mdist m) (mpar m) q d →
      mdist m dst = INF →
      q.length + (g.neighbours.length - Dcard g.neighbours.length (mdist m)) ≤ fuel →
      bfsLoopTr memOps g valid dst fuel m q false = (m', q', r, tr) →
      DistCore g valid src (mdist m') (mpar m') ∧
      StepSim g.neighbours.length m m' tr ∧
      (r = true → mdist m' dst ≠ INF) ∧
      (r = false → q' = [] ∧ mdist m' dst = INF ∧
        (∀ u, mdist m' u ≠ INF → ∀ w ∈ g.neighbours.getD u [], w ∈ valid →
          mdist m' w ≠ INF)) := by
  intro fuel
  induction fuel with
  | zero =>
      intro m q d m' q' r tr hInv hdst hfuel heq
      have hq0 : q = [] := List.eq_nil_of_length_eq_zero (by omega)
      subst hq0
      simp only [bfsLoopTr] at heq
      cases heq
      refine ⟨hInv.core, stepSim_refl _ m, ?_, ?_⟩
      · intro hfalse
        cases hfalse
      · intro _
        refine ⟨rfl, hdst, ?_⟩
        intro u hu w hw hwv
        exact (hInv.expanded u hu (List.not_mem_nil u) w hw hwv).1
  | succ f ih =>
      intro m q d m' q' r tr hInv hdst hfuel heq
      cases q with
      | nil =>
          rw [bfsLoopTr_succ_false_nil] at heq
          cases heq
          refine ⟨hInv.core, stepSim_refl _ m, ?_, ?_⟩
          · intro hfalse
            cases hfalse
          · intro _
            refine ⟨rfl, hdst, ?_⟩
            intro u hu w hw hwv
            exact (hInv.expanded u hu (List.not_mem_nil u) w hw hwv).1
      | cons c rest =>
          obtain ⟨d', hInv', hcd'⟩ :=
            bfsInv_relevel g valid src (mdist m) (mpar m) c rest d hInv
          have hd' : d' < g.neighbours.length :=
            level_lt_n g.neighbours.length (mdist m) d' hInv'.levels hInv'.core.disc_lt
          have hexp := bfsInv_to_expInv g valid src dst (mdist m) (mpar m) c rest d'
            hInv' hcd' hdst
          rcases hE : expandNeighboursTr memOps valid dst c (g.neighbours.getD c []) m rest
            with ⟨m1, q1, r1, tr1⟩
          obtain ⟨hcore1, hstep1, hq1eq, htv1, hr1t, hr1f⟩ :=
            expandNeighbours_master g valid src dst c d' hn hd' hvalid
              (g.neighbours.getD c []) [] m rest m1 q1 r1 tr1 (by simp) (by simp)
              hexp hE
          cases r1 with
          | true =>
              rw [bfsLoopTr_succ_false_cons, hE] at heq
              simp only [bfsLoopTr_reached, List.append_nil] at heq
              cases heq
              refine ⟨hcore1, hstep1, ?_, ?_⟩
              · intro _
                exact hr1t rfl
              · intro hfalse
                cases hfalse
          | false =>
              obtain ⟨hInv1, hdst1⟩ := hr1f rfl
              have hlen1 : q1.length = rest.length + tr1.length := by
                rw [hq1eq, List.length_append]
              have hdc1 := hstep1.dcard
              have hdle1 := Dcard_le g.neighbours.length (mdist m1)
              have hfuel1 : q1.length +
                  (g.neighbours.length - Dcard g.neighbours.length (mdist m1)) ≤ f := by
                simp only [List.length_cons] at hfuel
                omega
              rcases hR : bfsLoopTr memOps g valid dst f m1 q1 false
                with ⟨m2, q2, r2, tr2⟩
              rw [bfsLoopTr_succ_false_cons, hE] at heq
              simp only [hR] at heq
              cases heq
              obtain ⟨hc2, hs2, hr2t, hr2f⟩ :=
                ih m1 q1 d' m' q' r tr2 hInv1 hdst1 hfuel1 hR
              exact ⟨hc2, stepSim_trans _ m m1 m' tr1 tr2 hstep1 hs2, hr2t, hr2f⟩

/-! ## The instrumented loop computes the same results as the plain loop -/

theorem expandNeighboursTr_proj {σ : Type} (ops : VSOps σ) (valid : VSet)
    (dst c : VertexId) :
    ∀ (ws : List VertexId) (st : σ) (q : List VertexId),
      expandNeighbours ops valid dst c ws st q =
        ((expandNeighboursTr ops valid dst c ws st q).1,
         (expandNeighboursTr ops valid dst c ws st q).2.1,
         (expandNeighboursTr ops valid dst c ws st q).2.2.1) := by
  intro ws
  induction ws with
  | nil => intro st q; rfl
  | cons w ws' ih =>
      intro st q
      by_cases hw : w ∈ valid
      · by_cases hrel : (ops.getDistance st c + 1) % U64 < ops.getDistance st w
        · by_cases hwd : w = dst
          · simp only [expandNeighbours, expandNeighboursTr, if_pos hw, if_pos hrel,
              if_pos hwd]
          · rcases hr : expandNeighboursTr ops valid dst c ws'
                (ops.setParent (ops.setDistance st w ((ops.getDistance st c + 1) % U64))
                  w c) (q ++ [w]) with ⟨a, b, e, t⟩
            simp only [expandNeighbours, expandNeighboursTr, if_pos hw, if_pos hrel,
              if_neg hwd, ih, hr]
        · by_cases hwd : w = dst
          · simp only [expandNeighbours, expandNeighboursTr, if_pos hw, if_neg hrel,
              if_pos hwd]
          · rcases hr : expandNeighboursTr ops valid dst c ws' st q with ⟨a, b, e, t⟩
            simp only [expandNeighbours, expandNeighboursTr, if_pos hw, if_neg hrel,
              if_neg hwd, ih, hr]
      · rcases hr : expandNeighboursTr ops valid dst c ws' st q with ⟨a, b, e, t⟩
        simp only [expandNeighbours, expandNeighboursTr, if_neg hw, ih, hr]

theorem bfsLoop_succ_false_cons {σ : Type} (ops : VSOps σ) (g : LabelledGraph)
    (valid : VSet) (dst : VertexId) (f : Nat) (st : σ) (c : VertexId)
    (rest : List VertexId) :
    bfsLoop ops g valid dst (f + 1) st (c :: rest) false =
      (let x := expandNeighbours ops valid dst c (g.neighbours.getD c []) st rest
       bfsLoop ops g valid dst f x.1 x.2.1 x.2.2) := by
  show (let z := expandNeighbours ops valid dst c (g.neighbours.getD c []) st rest
        match z with
        | (st', q', reached') => bfsLoop ops g valid dst f st' q' reached') = _
  rcases expandNeighbours ops valid dst c (g.neighbours.getD c []) st rest
    with ⟨a, b, e⟩
  rfl

theorem bfsLoop_reached {σ : Type} (ops : VSOps σ) (g : LabelledGraph) (valid : VSet)
    (dst : VertexId) (fuel : Nat) (st : σ) (q : List VertexId) :
    bfsLoop ops g valid dst fuel st q true = (st, q, true) := by
  cases fuel <;> rfl

theorem bfsLoopTr_proj {σ : Type} (ops : VSOps σ) (g : LabelledGraph) (valid : VSet)
    (dst : VertexId) :
    ∀ (fuel : Nat) (st : σ) (q : List VertexId) (reached : Bool),
      bfsLoop ops g valid dst fuel st q reached =
        ((bfsLoopTr ops g valid dst fuel st q reached).1,
         (bfsLoopTr ops g valid dst fuel st q reached).2.1,
         (bfsLoopTr ops g valid dst fuel st q reached).2.2.1) := by
  intro fuel
  induction fuel with
  | zero => intro st q reached; rfl
  | succ f ih =>
      intro st q reached
      cases reached with
      | true => rw [bfsLoop_reached, bfsLoopTr_reached]
      | false =>
          cases q with
          | nil => rfl
          | cons c rest =>
              rw [bfsLoop_succ_false_cons, bfsLoopTr_succ_false_cons]
              simp only [expandNeighboursTr_proj ops valid dst c
                (g.neighbours.getD c []) st rest]
              rcases hE : expandNeighboursTr ops valid dst c (g.neighbours.getD c [])
                st rest with ⟨a, b, e, t⟩
              simp only [hE]
              rcases hR : bfsLoopTr ops g valid dst f a b e with ⟨a2, b2, e2, t2⟩
              simp only [ih a b e, hR]

/-! ## The invariant at loop entry -/

theorem mdist_init (src : VertexId) (v : VertexId) :
    mdist (OptimizedMemoryVertexState.SetDistance ⟨[], []⟩ src 0) v =
      if v = src then 0 else INF := by
  rw [mdist_SetDistance]
  rfl

theorem init_inv (g : LabelledGraph) (valid : VSet) (src dst : VertexId)
    (hvalid : ∀ v ∈ valid, v < g.neighbours.length)
    (hsrc : src ∈ valid) (hdstne : dst ≠ src) :
    BfsInv g valid src (mdist (OptimizedMemoryVertexState.SetDistance ⟨[], []⟩ src 0))
      (mpar (OptimizedMemoryVertexState.SetDistance ⟨[], []⟩ src 0)) [src] 0 ∧
    mdist (OptimizedMemoryVertexState.SetDistance ⟨[], []⟩ src 0) dst = INF ∧
    Dcard g.neighbours.length
      (mdist (OptimizedMemoryVertexState.SetDistance ⟨[], []⟩ src 0)) = 1 := by
  have hip := INF_pos
  have hdisc : ∀ v,
      mdist (OptimizedMemoryVertexState.SetDistance ⟨[], []⟩ src 0) v ≠ INF ↔
        v = src := by
    intro v
    rw [mdist_init]
    by_cases hv : v = src
    · simp [hv]
      omega
    · simp [hv]
  have hds : mdist (OptimizedMemoryVertexState.SetDistance ⟨[], []⟩ src 0) src = 0 := by
    rw [mdist_init, if_pos rfl]
  refine ⟨⟨⟨hds, ?_, ?_, ?_, ?_, ?_⟩, ?_, ?_, ?_, ?_, ?_, ?_⟩, ?_, ?_⟩
  · intro v hv
    rw [(hdisc v).mp hv]
    exact hvalid src hsrc
  · intro v hv
    rw [(hdisc v).mp hv]
    exact hsrc
  · intro v hv
    have hv1 := (hdisc v).mp hv
    subst hv1
    rw [hds]
    exact ReachN.refl hsrc
  · intro v hv k _
    have hv1 := (hdisc v).mp hv
    subst hv1
    rw [hds]
    omega
  · intro v hv hvs
    exact absurd ((hdisc v).mp hv) hvs
  · intro v hv
    rw [(hdisc v).mp hv, hds]
    omega
  · intro v k hk hreach
    have hk0 : k = 0 := Nat.le_zero.mp hk
    subst hk0
    exact (hdisc v).mpr (reachN_zero hreach)
  · intro u hu huq
    exact absurd (by rw [(hdisc u).mp hu]; exact List.mem_singleton_self src) huq
  · exact ⟨[src], [], rfl, fun v hv => by
      rw [List.mem_singleton] at hv
      rw [hv, hds], fun v hv => absurd hv (List.not_mem_nil v)⟩
  · intro v hv
    rw [List.mem_singleton] at hv
    exact (hdisc v).mpr hv
  · intro j hj
    have hj0 : j = 0 := Nat.le_zero.mp hj
    subst hj0
    exact ⟨src, hds, by rw [hds]; omega⟩
  · rw [mdist_init, if_neg hdstne]
  · unfold Dcard
    have : (Finset.range g.neighbours.length).filter
        (fun v => mdist (OptimizedMemoryVertexState.SetDistance ⟨[], []⟩ src 0) v ≠ INF)
        = {src} := by
      ext v
      simp only [Finset.mem_filter, Finset.mem_range, Finset.mem_singleton]
      constructor
      · intro ⟨_, hv2⟩
        exact (hdisc v).mp hv2
      · intro hv
        subst hv
        exact ⟨hvalid v hsrc, (hdisc v).mpr rfl⟩
    rw [this]
    rfl

/-! ## Path reconstruction from the parent chain -/

theorem findPathVertices_spec (g : LabelledGraph) (valid : VSet) (src : VertexId)
    (dist : VertexId → Nat) (getP : VertexId → VertexId)
    (hsrc0 : dist src = 0)
    (hval : ∀ v, dist v ≠ INF → v ∈ valid)
    (hchain : ∀ v, dist v ≠ INF → v ≠ src →
      dist (getP v) ≠ INF ∧ dist v = dist (getP v) + 1 ∧
      v ∈ g.neighbours.getD (getP v) []) :
    ∀ (fuel : Nat) (curr : VertexId), dist curr ≠ INF → dist curr < fuel →
      (findPathVertices getP src fuel curr).length = dist curr + 1 ∧
      (findPathVertices getP src fuel curr).head? = some src ∧
      (findPathVertices getP src fuel curr).getLast? = some curr ∧
      List.Chain' (fun a b => b ∈ g.neighbours.getD a [])
        (findPathVertices getP src fuel curr) ∧
      (∀ v ∈ findPathVertices getP src fuel curr, v ∈ valid) := by
  intro fuel
  induction fuel with
  | zero =>
      intro curr _ hlt
      exact absurd hlt (Nat.not_lt_zero _)
  | succ f ih =>
      intro curr hcur hlt
      by_cases hc : curr = src
      · subst hc
        simp only [findPathVertices, if_pos rfl]
        refine ⟨?_, rfl, rfl, List.chain'_singleton _, ?_⟩
        · simp [hsrc0]
        · intro v hv
          have hv' : v = curr := by simpa using hv
          subst hv'
          exact hval v hcur
      · simp only [findPathVertices, if_neg hc]
        obtain ⟨hp1, hp2, hp3⟩ := hchain curr hcur hc
        have hplt : dist (getP curr) < f := by omega
        obtain ⟨ihl, ihh, ihlast, ihchain, ihval⟩ := ih (getP curr) hp1 hplt
        have hne : findPathVertices getP src f (getP curr) ≠ [] := by
          intro hnil
          rw [hnil] at ihl
          simp at ihl
        refine ⟨?_, ?_, ?_, ?_, ?_⟩
        · rw [List.length_append, ihl]
          simp
          omega
        · cases hvs : findPathVertices getP src f (getP curr) with
          | nil => exact absurd hvs hne
          | cons a t =>
              rw [hvs] at ihh
              simpa using ihh
        · rw [List.getLast?_concat]
        · rw [List.chain'_append]
          refine ⟨ihchain, List.chain'_singleton _, ?_⟩
          intro x hx y hy
          simp only [List.head?_cons, Option.mem_def, Option.some.injEq] at hy
          rw [ihlast] at hx
          simp only [Option.mem_def, Option.some.injEq] at hx
          rw [← hy, ← hx]
          exact hp3
        · intro v hv
          rcases List.mem_append.mp hv with hv1 | hv2
          · exact ihval v hv1
          · rw [List.mem_singleton] at hv2
            subst hv2
            exact hval v hcur

/-! ## Result of `shortestPathImpl` in terms of the BFS loop output -/

theorem spImpl_fst {σ : Type} (ops : VSOps σ) (g : LabelledGraph) (st : σ)
    (src dst : VertexId) (label : Label) (valid : VSet)
    (hfind : lmapFind g.label_to_vertices label = some valid)
    (hsx : vertexExists g src) (hdx : vertexExists g dst)
    (hsv : src ∈ valid) (hdv : dst ∈ valid) :
    (shortestPathImpl ops g st src dst label).1 =
      (if (bfsLoop ops g valid dst (g.neighbours.length + 1)
            (ops.setDistance st src 0) [src] (decide (src = dst))).2.2 = true
       then some (ops.FindPath
            (bfsLoop ops g valid dst (g.neighbours.length + 1)
              (ops.setDistance st src 0) [src] (decide (src = dst))).1 src dst)
       else none) := by
  unfold shortestPathImpl
  rw [if_neg (by simp [hsx, hdx])]
  split
  · rename_i hnone
    rw [hnone] at hfind
    cases hfind
  · rename_i valid' hsome
    have hvv : valid = valid' := by
      have h := hfind.symm.trans hsome
      injection h
    subst hvv
    rw [if_neg (by simp [hsv, hdv])]
    rcases hB : bfsLoop ops g valid dst (g.neighbours.length + 1)
        (ops.setDistance st src 0) [src] (decide (src = dst)) with ⟨a, b, e⟩
    simp only [hB]
    cases e <;> rfl

/-! ## End-to-end correctness of the sparse-variant `ShortestPath` -/

theorem spImpl_mem_correct (g : LabelledGraph)
    (hadj : ∀ i, ∀ w ∈ g.neighbours.getD i [], w < g.neighbours.length)
    (hlab : ∀ l vs, lmapFind g.label_to_vertices l = some vs →
      ∀ v ∈ vs, v < g.neighbours.length)
    (hn : g.neighbours.length < INF)
    (src dst : VertexId) (label : Label)
    (hsrcx : vertexExists g src) (hdstx : vertexExists g dst) :
    ((shortestPathImpl memOps g ⟨[], []⟩ src dst label).1 = none ↔
      ∀ k, ¬ ReachN g (labelSet g label) src k dst) ∧
    (∀ p, (shortestPathImpl memOps g ⟨[], []⟩ src dst label).1 = some p →
      ReachN g (labelSet g label) src p.length dst ∧
      (∀ k, ReachN g (labelSet g label) src k dst → p.length ≤ k) ∧
      p.length = p.vertices.length - 1 ∧
      p.vertices.head? = some src ∧
      p.vertices.getLast? = some dst ∧
      List.Chain' (fun a b => b ∈ g.neighbours.getD a []) p.vertices ∧
      (∀ v ∈ p.vertices, v ∈ labelSet g label)) := by
  cases hfind : lmapFind g.label_to_vertices label with
  | none =>
      have hres : (shortestPathImpl memOps g ⟨[], []⟩ src dst label).1 = none := by
        unfold shortestPathImpl
        rw [if_neg (by simp [hsrcx, hdstx])]
        split
        · rfl
        · rename_i valid' hsome
          rw [hsome] at hfind
          cases hfind
      have hls : labelSet g label = [] := by simp [labelSet, hfind]
      rw [hres, hls]
      constructor
      · constructor
        · intro _ k hr
          exact absurd (reachN_src_mem hr) (List.not_mem_nil src)
        · intro _
          rfl
      · intro p hp
        cases hp
  | some valid =>
      have hls : labelSet g label = valid := by simp [labelSet, hfind]
      rw [hls]
      have hvalidn : ∀ v ∈ valid, v < g.neighbours.length := hlab label valid hfind
      by_cases hmem : src ∉ valid ∨ dst ∉ valid
      · have hres : (shortestPathImpl memOps g ⟨[], []⟩ src dst label).1 = none := by
          unfold shortestPathImpl
          rw [if_neg (by simp [hsrcx, hdstx])]
          split
          · rfl
          · rename_i valid' hsome
            have hvv : valid = valid' := by
              have h := hfind.symm.trans hsome
              injection h
            subst hvv
            rw [if_pos hmem]
        rw [hres]
        constructor
        · constructor
          · intro _ k hr
            rcases hmem with h | h
            · exact h (reachN_src_mem hr)
            · exact h (reachN_valid hr)
          · intro _
            rfl
        · intro p hp
          cases hp
      · push_neg at hmem
        obtain ⟨hsrcv, hdstv⟩ := hmem
        rw [spImpl_fst memOps g ⟨[], []⟩ src dst label valid hfind hsrcx hdstx hsrcv hdstv,
          memOps_setDistance]
        by_cases hsd : src = dst
        · subst hsd
          have hdec : decide (src = src) = true := by simp
          rw [hdec, bfsLoop_reached]
          have hfp : memOps.FindPath (OptimizedMemoryVertexState.SetDistance ⟨[], []⟩ src 0)
              src src = ⟨0, [src]⟩ := by
            unfold VSOps.FindPath
            rw [findPathVertices_self]
            rfl
          simp only [hfp]
          constructor
          · constructor
            · intro h
              cases h
            · intro hall
              exact absurd (ReachN.refl hsrcv) (hall 0)
          · intro p hp
            have hps : p = ⟨0, [src]⟩ := by
              injection hp with h
              exact h.symm
            subst hps
            refine ⟨ReachN.refl hsrcv, ?_, rfl, rfl, rfl, List.chain'_singleton _, ?_⟩
            · intro k _
              exact Nat.zero_le k
            · intro v hv
              have hv' : v = src := by simpa using hv
              subst hv'
              exact hsrcv
        · have hdec : decide (src = dst) = false := by simp [hsd]
          rw [hdec, bfsLoopTr_proj]
          rcases hT : bfsLoopTr memOps g valid dst (g.neighbours.length + 1)
              (OptimizedMemoryVertexState.SetDistance ⟨[], []⟩ src 0) [src] false
            with ⟨m2, q2, r2, tr2⟩
          simp only [hT]
          obtain ⟨hInv0, hdst0, hD0⟩ :=
            init_inv g valid src dst hvalidn hsrcv (fun hh => hsd hh.symm)
          have hfuel0 : ([src] : List VertexId).length +
              (g.neighbours.length -
                Dcard g.neighbours.length
                  (mdist (OptimizedMemoryVertexState.SetDistance ⟨[], []⟩ src 0)))
              ≤ g.neighbours.length + 1 := by
            rw [hD0]
            simp only [List.length_singleton]
            omega
          obtain ⟨hcore2, hsim2, hrt, hrf⟩ :=
            bfsLoop_master g valid src dst hn hvalidn (g.neighbours.length + 1) _
              [src] 0 m2 q2 r2 tr2 hInv0 hdst0 hfuel0 hT
          cases r2 with
          | false =>
              obtain ⟨hq2nil, hdst2, hclosed⟩ := hrf rfl
              have hall : ∀ k v, ReachN g valid src k v → mdist m2 v ≠ INF := by
                intro k v h
                induction h with
                | refl h =>
                    rw [hcore2.dist_src]
                    have := INF_pos
                    omega
                | step hu hedge hval ihh =>
                    exact hclosed _ ihh _ hedge hval
              constructor
              · constructor
                · intro _ k hr
                  exact (hall k dst hr) hdst2
                · intro _
                  rfl
              · intro p hp
                cases hp
          | true =>
              have hdd : mdist m2 dst ≠ INF := hrt rfl
              have hchain : ∀ v, mdist m2 v ≠ INF → v ≠ src →
                  mdist m2 (memOps.getParent m2 v) ≠ INF ∧
                  mdist m2 v = mdist m2 (memOps.getParent m2 v) + 1 ∧
                  v ∈ g.neighbours.getD (memOps.getParent m2 v) [] := by
                intro v hv hvs
                obtain ⟨u, hu1, hu2, hu3, hu4⟩ := hcore2.parent_chain v hv hvs
                have hgp : memOps.getParent m2 v = u := by
                  rw [memOps_getParent, memGetParent_eq_mpar, hu1]
                  rfl
                rw [hgp]
                exact ⟨hu2, hu3, hu4⟩
              have hflt : mdist m2 dst < memOps.getDistance m2 dst + 1 := by
                have : memOps.getDistance m2 dst = mdist m2 dst := rfl
                omega
              obtain ⟨hl, hh, hlast, hch, hvl⟩ :=
                findPathVertices_spec g valid src (mdist m2) (memOps.getParent m2)
                  hcore2.dist_src hcore2.disc_valid hchain
                  (memOps.getDistance m2 dst + 1) dst hdd hflt
              have hres : memOps.FindPath m2 src dst =
                  ⟨(findPathVertices (memOps.getParent m2) src
                      (memOps.getDistance m2 dst + 1) dst).length - 1,
                   findPathVertices (memOps.getParent m2) src
                      (memOps.getDistance m2 dst + 1) dst⟩ := rfl
              have hplen : (findPathVertices (memOps.getParent m2) src
                  (memOps.getDistance m2 dst + 1) dst).length - 1 = mdist m2 dst := by
                rw [hl]
                omega
              constructor
              · constructor
                · intro h
                  cases h
                · intro hall
                  exact absurd (hcore2.reach_of_disc dst hdd) (hall (mdist m2 dst))
              · intro p hp
                have hps : p = memOps.FindPath m2 src dst := by
                  rw [if_pos rfl] at hp
                  injection hp with h
                  exact h.symm
                subst hps
                rw [hres]
                refine ⟨?_, ?_, ?_, hh, hlast, hch, hvl⟩
                · simp only [hplen]
                  exact hcore2.reach_of_disc dst hdd
                · intro k hk
                  simp only [hplen]
                  exact hcore2.min_of_disc dst hdd k hk
                · rfl

/-! ## Simulation between the sparse and dense variants -/

theorem rel_clean (n : Nat) :
    Rel n ⟨[], []⟩ ⟨List.replicate n 0, List.replicate n INF, []⟩ := by
  refine ⟨by simp, by simp, ?_, ?_⟩
  · intro v hv
    show (List.replicate n INF).getD v INF = _
    rw [getD_replicate, if_pos hv]
    rfl
  · intro v u h
    cases h

theorem rel_getDistance (n : Nat) (m : OptimizedMemoryVertexState)
    (p : OptimizedPerformanceVertexState) (h : Rel n m p) (v : VertexId) (hv : v < n) :
    perfOps.getDistance p v = memOps.getDistance m v := h.2.2.1 v hv

theorem rel_setDistance (n : Nat) (m : OptimizedMemoryVertexState)
    (p : OptimizedPerformanceVertexState) (h : Rel n m p) (v : VertexId) (hv : v < n)
    (d : Nat) : Rel n (m.SetDistance v d) (p.SetDistance v d) := by
  obtain ⟨hl1, hl2, hdist, hpar⟩ := h
  refine ⟨?_, ?_, ?_, ?_⟩
  · simp [OptimizedPerformanceVertexState.SetDistance, hl1]
  · simp [OptimizedPerformanceVertexState.SetDistance, hl2]
  · intro w hw
    show (p.distances_.set v d).getD w INF =
      (alistFind (alistSet m.distances_ v d) w).getD INF
    rw [alistFind_alistSet]
    by_cases hwv : w = v
    · subst hwv
      rw [getD_set_self, if_pos (by rw [hl1]; exact hv), if_pos rfl]
      rfl
    · rw [getD_set_ne _ (fun hh => hwv hh.symm), if_neg hwv]
      exact hdist w hw
  · intro w u hfind
    exact hpar w u hfind

theorem rel_setParent (n : Nat) (m : OptimizedMemoryVertexState)
    (p : OptimizedPerformanceVertexState) (h : Rel n m p) (v : VertexId) (hv : v < n)
    (u : Nat) : Rel n (m.SetParent v u) (p.SetParent v u) := by
  obtain ⟨hl1, hl2, hdist, hpar⟩ := h
  refine ⟨?_, ?_, ?_, ?_⟩
  · simp [OptimizedPerformanceVertexState.SetParent, hl1]
  · simp [OptimizedPerformanceVertexState.SetParent, hl2]
  · intro w hw
    exact hdist w hw
  · intro w x hfind
    show _ ∧ (p.parent_.set v u).getD w 0 = x
    rw [show alistFind (m.SetParent v u).parent_ w =
      alistFind (alistSet m.parent_ v u) w from rfl, alistFind_alistSet] at hfind
    by_cases hwv : w = v
    · subst hwv
      rw [if_pos rfl] at hfind
      injection hfind with hx
      subst hx
      rw [getD_set_self, if_pos (by rw [hl2]; exact hv)]
      exact ⟨hv, rfl⟩
    · rw [if_neg hwv] at hfind
      obtain ⟨hwn, hpw⟩ := hpar w x hfind
      rw [getD_set_ne _ (fun hh => hwv hh.symm)]
      exact ⟨hwn, hpw⟩

theorem expandTr_sim (valid : VSet) (dst c : VertexId) (n : Nat)
    (hvalid : ∀ v ∈ valid, v < n) (hc : c < n) :
    ∀ (ws : List VertexId) (m : OptimizedMemoryVertexState)
      (p : OptimizedPerformanceVertexState) (q : List VertexId),
      Rel n m p →
      Rel n (expandNeighboursTr memOps valid dst c ws m q).1
            (expandNeighboursTr perfOps valid dst c ws p q).1 ∧
      (expandNeighboursTr perfOps valid dst c ws p q).2.1 =
        (expandNeighboursTr memOps valid dst c ws m q).2.1 ∧
      (expandNeighboursTr perfOps valid dst c ws p q).2.2.1 =
        (expandNeighboursTr memOps valid dst c ws m q).2.2.1 ∧
      (expandNeighboursTr perfOps valid dst c ws p q).2.2.2 =
        (expandNeighboursTr memOps valid dst c ws m q).2.2.2 := by
  intro ws
  induction ws with
  | nil =>
      intro m p q hR
      exact ⟨hR, rfl, rfl, rfl⟩
  | cons w ws' ih =>
      intro m p q hR
      by_cases hw : w ∈ valid
      · have hwn : w < n := hvalid w hw
        have hgc : perfOps.getDistance p c = memOps.getDistance m c :=
          rel_getDistance n m p hR c hc
        have hgw : perfOps.getDistance p w = memOps.getDistance m w :=
          rel_getDistance n m p hR w hwn
        by_cases hrel : (memOps.getDistance m c + 1) % U64 < memOps.getDistance m w
        · have hrelp : (perfOps.getDistance p c + 1) % U64 < perfOps.getDistance p w := by
            rw [hgc, hgw]
            exact hrel
          have hR1 : Rel n
              ((m.SetDistance w ((memOps.getDistance m c + 1) % U64)).SetParent w c)
              ((p.SetDistance w ((perfOps.getDistance p c + 1) % U64)).SetParent w c) := by
            rw [hgc]
            exact rel_setParent n _ _
              (rel_setDistance n m p hR w hwn ((memOps.getDistance m c + 1) % U64)) w hwn c
          by_cases hwd : w = dst
          · simp only [expandNeighboursTr, if_pos hw, if_pos hrel, if_pos hrelp,
              if_pos hwd, memOps_setDistance, memOps_setParent, perfOps_setDistance,
              perfOps_setParent]
            exact ⟨hR1, by trivial, by trivial, by trivial⟩
          · rcases hrm : expandNeighboursTr memOps valid dst c ws'
                ((m.SetDistance w ((memOps.getDistance m c + 1) % U64)).SetParent w c)
                (q ++ [w]) with ⟨a1, b1, e1, t1⟩
            rcases hrp : expandNeighboursTr perfOps valid dst c ws'
                ((p.SetDistance w ((perfOps.getDistance p c + 1) % U64)).SetParent w c)
                (q ++ [w]) with ⟨a2, b2, e2, t2⟩
            have hihr := ih _ _ (q ++ [w]) hR1
            rw [hrm, hrp] at hihr
            simp only at hihr
            simp only [expandNeighboursTr, if_pos hw, if_pos hrel, if_pos hrelp,
              if_neg hwd, memOps_setDistance, memOps_setParent, perfOps_setDistance,
              perfOps_setParent, hrm, hrp]
            obtain ⟨hx1, hx2, hx3, hx4⟩ := hihr
            exact ⟨hx1, hx2, hx3, by rw [hx4]⟩
        · have hrelp : ¬ (perfOps.getDistance p c + 1) % U64 < perfOps.getDistance p w := by
            rw [hgc, hgw]
            exact hrel
          by_cases hwd : w = dst
          · simp only [expandNeighboursTr, if_pos hw, if_neg hrel, if_neg hrelp,
              if_pos hwd]
            exact ⟨hR, by trivial, by trivial, by trivial⟩
          · rcases hrm : expandNeighboursTr memOps valid dst c ws' m q
              with ⟨a1, b1, e1, t1⟩
            rcases hrp : expandNeighboursTr perfOps valid dst c ws' p q
              with ⟨a2, b2, e2, t2⟩
            have hihr := ih m p q hR
            rw [hrm, hrp] at hihr
            simp only at hihr
            simp only [expandNeighboursTr, if_pos hw, if_neg hrel, if_neg hrelp,
              if_neg hwd, hrm, hrp]
            exact hihr
      · rcases hrm : expandNeighboursTr memOps valid dst c ws' m q
          with ⟨a1, b1, e1, t1⟩
        rcases hrp : expandNeighboursTr perfOps valid dst c ws' p q
          with ⟨a2, b2, e2, t2⟩
        have hihr := ih m p q hR
        rw [hrm, hrp] at hihr
        simp only at hihr
        simp only [expandNeighboursTr, if_neg hw, hrm, hrp]
        exact hihr

/-- Pushed vertices lie in `valid`; queue output extends the input queue
(membership form, for bounding queue members in the loop simulation). -/
theorem expandTr_queue_sub {σ : Type} (ops : VSOps σ) (valid : VSet) (dst c : VertexId) :
    ∀ (ws : List VertexId) (st : σ) (q : List VertexId),
      ∀ v ∈ (expandNeighboursTr ops valid dst c ws st q).2.1, v ∈ q ∨ v ∈ valid := by
  intro ws
  induction ws with
  | nil =>
      intro st q v hv
      exact Or.inl hv
  | cons w ws' ih =>
      intro st q v hv
      by_cases hw : w ∈ valid
      · by_cases hrel : (ops.getDistance st c + 1) % U64 < ops.getDistance st w
        · by_cases hwd : w = dst
          · simp only [expandNeighboursTr, if_pos hw, if_pos hrel, if_pos hwd] at hv
            rcases List.mem_append.mp hv with hv1 | hv2
            · exact Or.inl hv1
            · rw [List.mem_singleton] at hv2
              subst hv2
              exact Or.inr hw
          · simp only [expandNeighboursTr, if_pos hw, if_pos hrel, if_neg hwd] at hv
            rcases hr : expandNeighboursTr ops valid dst c ws'
                (ops.setParent (ops.setDistance st w ((ops.getDistance st c + 1) % U64))
                  w c) (q ++ [w]) with ⟨a, b, e, t⟩
            rw [hr] at hv
            simp only at hv
            have := ih _ (q ++ [w]) v (by rw [hr]; exact hv)
            rcases this with hv1 | hv2
            · rcases List.mem_append.mp hv1 with h | h
              · exact Or.inl h
              · rw [List.mem_singleton] at h
                subst h
                exact Or.inr hw
            · exact Or.inr hv2
        · by_cases hwd : w = dst
          · simp only [expandNeighboursTr, if_pos hw, if_neg hrel, if_pos hwd] at hv
            exact Or.inl hv
          · simp only [expandNeighboursTr, if_pos hw, if_neg hrel, if_neg hwd] at hv
            exact ih st q v hv
      · simp only [expandNeighboursTr, if_neg hw] at hv
        exact ih st q v hv

theorem bfsLoopTr_sim (g : LabelledGraph) (valid : VSet) (dst : VertexId)
    (hvalid : ∀ v ∈ valid, v < g.neighbours.length) :
    ∀ (fuel : Nat) (m : OptimizedMemoryVertexState)
      (p : OptimizedPerformanceVertexState) (q : List VertexId) (reached : Bool),
      Rel g.neighbours.length m p → (∀ v ∈ q, v < g.neighbours.length) →
      Rel g.neighbours.length (bfsLoopTr memOps g valid dst fuel m q reached).1
        (bfsLoopTr perfOps g valid dst fuel p q reached).1 ∧
      (bfsLoopTr perfOps g valid dst fuel p q reached).2.1 =
        (bfsLoopTr memOps g valid dst fuel m q reached).2.1 ∧
      (bfsLoopTr perfOps g valid dst fuel p q reached).2.2.1 =
        (bfsLoopTr memOps g valid dst fuel m q reached).2.2.1 ∧
      (bfsLoopTr perfOps g valid dst fuel p q reached).2.2.2 =
        (bfsLoopTr memOps g valid dst fuel m q reached).2.2.2 := by
  intro fuel
  induction fuel with
  | zero =>
      intro m p q reached hR _
      exact ⟨hR, rfl, rfl, rfl⟩
  | succ f ih =>
      intro m p q reached hR hq
      cases reached with
      | true =>
          rw [bfsLoopTr_reached, bfsLoopTr_reached]
          exact ⟨hR, rfl, rfl, rfl⟩
      | false =>
          cases q with
          | nil =>
              rw [bfsLoopTr_succ_false_nil, bfsLoopTr_succ_false_nil]
              exact ⟨hR, rfl, rfl, rfl⟩
          | cons c rest =>
              have hc : c < g.neighbours.length := hq c (List.mem_cons_self c rest)
              have hrest : ∀ v ∈ rest, v < g.neighbours.length :=
                fun v hv => hq v (List.mem_cons_of_mem c hv)
              obtain ⟨hR1, hq1, hr1, ht1⟩ :=
                expandTr_sim valid dst c g.neighbours.length hvalid hc
                  (g.neighbours.getD c []) m p rest hR
              rcases hEm : expandNeighboursTr memOps valid dst c (g.neighbours.getD c [])
                  m rest with ⟨m1, qm1, rm1, trm1⟩
              rcases hEp : expandNeighboursTr perfOps valid dst c (g.neighbours.getD c [])
                  p rest with ⟨p1, qp1, rp1, trp1⟩
              rw [hEm, hEp] at hR1 hq1 hr1 ht1
              simp only at hR1 hq1 hr1 ht1
              subst hq1
              subst hr1
              subst ht1
              have hq1v : ∀ v ∈ qp1, v < g.neighbours.length := by
                intro v hv
                have := expandTr_queue_sub memOps valid dst c (g.neighbours.getD c [])
                  m rest v (by rw [hEm]; exact hv)
                rcases this with h | h
                · exact hrest v h
                · exact hvalid v h
              obtain ⟨hR2, hq2, hr2, ht2⟩ := ih m1 p1 qp1 rp1 hR1 hq1v
              rw [bfsLoopTr_succ_false_cons, bfsLoopTr_succ_false_cons, hEm, hEp]
              simp only
              exact ⟨hR2, hq2, hr2, by rw [ht2]⟩

theorem findPath_sim (g : LabelledGraph) (valid : VSet) (src : VertexId)
    (m : OptimizedMemoryVertexState) (p : OptimizedPerformanceVertexState)
    (hR : Rel g.neighbours.length m p)
    (hcore : DistCore g valid src (mdist m) (mpar m)) :
    ∀ (fuel : Nat) (curr : VertexId), mdist m curr ≠ INF → mdist m curr < fuel →
      findPathVertices (perfOps.getParent p) src fuel curr =
        findPathVertices (memOps.getParent m) src fuel curr := by
  intro fuel
  induction fuel with
  | zero =>
      intro curr _ hlt
      exact absurd hlt (Nat.not_lt_zero _)
  | succ f ih =>
      intro curr hcur hlt
      by_cases hc : curr = src
      · subst hc
        rw [findPathVertices_self, findPathVertices_self]
      · simp only [findPathVertices, if_neg hc]
        obtain ⟨u, hu1, hu2, hu3, _⟩ := hcore.parent_chain curr hcur hc
        have hgpm : memOps.getParent m curr = u := by
          rw [memOps_getParent, memGetParent_eq_mpar, hu1]
          rfl
        have hgpp : perfOps.getParent p curr = u := (hR.2.2.2 curr u hu1).2
        rw [hgpm, hgpp]
        rw [ih u hu2 (by omega)]

/-! ## Early-exit branches of `shortestPathImpl` -/

theorem spImpl_fst_badvertex {σ : Type} (ops : VSOps σ) (g : LabelledGraph) (st : σ)
    (src dst : VertexId) (label : Label)
    (h : ¬ vertexExists g src ∨ ¬ vertexExists g dst) :
    (shortestPathImpl ops g st src dst label).1 = none := by
  unfold shortestPathImpl
  rw [if_pos h]

theorem spImpl_fst_nolabel {σ : Type} (ops : VSOps σ) (g : LabelledGraph) (st : σ)
    (src dst : VertexId) (label : Label)
    (hs : vertexExists g src) (hd : vertexExists g dst)
    (hnone : lmapFind g.label_to_vertices label = none) :
    (shortestPathImpl ops g st src dst label).1 = none := by
  unfold shortestPathImpl
  rw [if_neg (by simp [hs, hd])]
  split
  · rfl
  · rename_i v hsome
    rw [hsome] at hnone
    cases hnone

theorem spImpl_fst_notmem {σ : Type} (ops : VSOps σ) (g : LabelledGraph) (st : σ)
    (src dst : VertexId) (label : Label) (valid : VSet)
    (hs : vertexExists g src) (hd : vertexExists g dst)
    (hfind : lmapFind g.label_to_vertices label = some valid)
    (hmem : src ∉ valid ∨ dst ∉ valid) :
    (shortestPathImpl ops g st src dst label).1 = none := by
  unfold shortestPathImpl
  rw [if_neg (by simp [hs, hd])]
  split
  · rfl
  · rename_i valid' hsome
    have hvv : valid = valid' := by
      have h := hfind.symm.trans hsome
      injection h
    subst hvv
    rw [if_pos hmem]

/-! ## The dense variant computes the same result as the sparse variant -/

theorem spImpl_mem_perf (g : LabelledGraph)
    (hlab : ∀ l vs, lmapFind g.label_to_vertices l = some vs →
      ∀ v ∈ vs, v < g.neighbours.length)
    (hn : g.neighbours.length < INF)
    (src dst : VertexId) (label : Label) :
    (shortestPathImpl perfOps g
        ⟨List.replicate g.neighbours.length 0,
         List.replicate g.neighbours.length INF, []⟩ src dst label).1 =
      (shortestPathImpl memOps g ⟨[], []⟩ src dst label).1 := by
  by_cases hv : ¬ vertexExists g src ∨ ¬ vertexExists g dst
  · rw [spImpl_fst_badvertex perfOps g _ src dst label hv,
      spImpl_fst_badvertex memOps g _ src dst label hv]
  · push_neg at hv
    obtain ⟨hsx, hdx⟩ := hv
    cases hfind : lmapFind g.label_to_vertices label with
    | none =>
        rw [spImpl_fst_nolabel perfOps g _ src dst label hsx hdx hfind,
          spImpl_fst_nolabel memOps g _ src dst label hsx hdx hfind]
    | some valid =>
        by_cases hmem : src ∉ valid ∨ dst ∉ valid
        · rw [spImpl_fst_notmem perfOps g _ src dst label valid hsx hdx hfind hmem,
            spImpl_fst_notmem memOps g _ src dst label valid hsx hdx hfind hmem]
        · push_neg at hmem
          obtain ⟨hsv, hdv⟩ := hmem
          have hvalidn := hlab label valid hfind
          rw [spImpl_fst perfOps g _ src dst label valid hfind hsx hdx hsv hdv,
            spImpl_fst memOps g _ src dst label valid hfind hsx hdx hsv hdv,
            memOps_setDistance, perfOps_setDistance]
          by_cases hsd : src = dst
          · subst hsd
            have hdec : decide (src = src) = true := by simp
            rw [hdec, bfsLoop_reached, bfsLoop_reached]
            have h1 : memOps.FindPath
                (OptimizedMemoryVertexState.SetDistance ⟨[], []⟩ src 0) src src =
                ⟨0, [src]⟩ := by
              unfold VSOps.FindPath
              rw [findPathVertices_self]
              rfl
            have h2 : perfOps.FindPath
                (OptimizedPerformanceVertexState.SetDistance
                  ⟨List.replicate g.neighbours.length 0,
                   List.replicate g.neighbours.length INF, []⟩ src 0) src src =
                ⟨0, [src]⟩ := by
              unfold VSOps.FindPath
              rw [findPathVertices_self]
              rfl
            rw [if_pos rfl, if_pos rfl, h1, h2]
          · have hdec : decide (src = dst) = false := by simp [hsd]
            have hsrcn : src < g.neighbours.length := hsx
            rw [hdec, bfsLoopTr_proj, bfsLoopTr_proj]
            have hR0 : Rel g.neighbours.length
                (OptimizedMemoryVertexState.SetDistance ⟨[], []⟩ src 0)
                (OptimizedPerformanceVertexState.SetDistance
                  ⟨List.replicate g.neighbours.length 0,
                   List.replicate g.neighbours.length INF, []⟩ src 0) :=
              rel_setDistance g.neighbours.length _ _
                (rel_clean g.neighbours.length) src hsrcn 0
            obtain ⟨hR2, hq2, hr2, ht2⟩ :=
              bfsLoopTr_sim g valid dst hvalidn (g.neighbours.length + 1) _ _ [src]
                false hR0 (by
                  intro v hv
                  rw [List.mem_singleton] at hv
                  subst hv
                  exact hsrcn)
            rcases hTm : bfsLoopTr memOps g valid dst (g.neighbours.length + 1)
                (OptimizedMemoryVertexState.SetDistance ⟨[], []⟩ src 0) [src] false
              with ⟨m2, qm2, rm2, trm2⟩
            rcases hTp : bfsLoopTr perfOps g valid dst (g.neighbours.length + 1)
                (OptimizedPerformanceVertexState.SetDistance
                  ⟨List.replicate g.neighbours.length 0,
                   List.replicate g.neighbours.length INF, []⟩ src 0) [src] false
              with ⟨p2, qp2, rp2, trp2⟩
            rw [hTm, hTp] at hR2 hq2 hr2 ht2
            simp only at hR2 hq2 hr2 ht2
            subst hq2
            subst hr2
            subst ht2
            simp only [hTm, hTp]
            obtain ⟨hInv0, hdst0, hD0⟩ :=
              init_inv g valid src dst hvalidn hsv (fun hh => hsd hh.symm)
            have hfuel0 : ([src] : List VertexId).length +
                (g.neighbours.length -
                  Dcard g.neighbours.length
                    (mdist (OptimizedMemoryVertexState.SetDistance ⟨[], []⟩ src 0)))
                ≤ g.neighbours.length + 1 := by
              rw [hD0]
              simp only [List.length_singleton]
              omega
            obtain ⟨hcore2, hsim2, hrt, hrf⟩ :=
              bfsLoop_master g valid src dst hn hvalidn (g.neighbours.length + 1) _
                [src] 0 m2 qp2 rp2 trp2 hInv0 hdst0 hfuel0 hTm
            cases rp2 with
            | false => rfl
            | true =>
                have hdd : mdist m2 dst ≠ INF := hrt rfl
                rw [if_pos rfl, if_pos rfl]
                have hfd : perfOps.getDistance p2 dst = memOps.getDistance m2 dst :=
                  rel_getDistance g.neighbours.length m2 p2 hR2 dst hdx
                have hvseq : findPathVertices (perfOps.getParent p2) src
                    (perfOps.getDistance p2 dst + 1) dst =
                    findPathVertices (memOps.getParent m2) src
                    (memOps.getDistance m2 dst + 1) dst := by
                  rw [hfd]
                  exact findPath_sim g valid src m2 p2 hR2 hcore2
                    (memOps.getDistance m2 dst + 1) dst hdd (by
                      have : memOps.getDistance m2 dst = mdist m2 dst := rfl
                      omega)
                unfold VSOps.FindPath
                rw [hvseq]

/-! ## Store-level query reduces to the sparse model -/

theorem store_sp_eq_memImpl (s : GraphStore) (hwf : StoreWF s)
    (hn : s.graph.neighbours.length < INF) (src dst : VertexId) (label : Label) :
    (s.ShortestPath src dst label).1 =
      (shortestPathImpl memOps s.graph ⟨[], []⟩ src dst label).1 := by
  obtain ⟨g, vs⟩ := s
  obtain ⟨⟨hadjw, hlabw⟩, hclean⟩ := hwf
  cases vs with
  | mem m =>
      have hm : m = ⟨[], []⟩ := hclean
      subst hm
      rfl
  | perf p =>
      have hp : p = ⟨List.replicate g.neighbours.length 0,
          List.replicate g.neighbours.length INF, []⟩ := hclean
      subst hp
      exact spImpl_mem_perf g hlabw hn src dst label

/-! ## Claim C1: BFS computes exact shortest distances -/

/-- C1: on every store built by a sequence of mutation calls, for existing
`src`/`dst`, `ShortestPath` returns NotFound exactly when no directed path
through `label`-holding vertices exists, and any returned path's length is the
exact shortest-path distance in the label-induced subgraph (so the early BFS
termination is still exact).  The hypothesis `hn` states that the vertex count
is below the `uint64` sentinel value `2^64 - 1`, which always holds for a real
process. -/
theorem shortestPath_correct (s : GraphStore) (hs : Reachable s)
    (hn : s.graph.neighbours.length < INF) (src dst : VertexId) (label : Label)
    (hsx : vertexExists s.graph src) (hdx : vertexExists s.graph dst) :
    ((s.ShortestPath src dst label).1 = none ↔
      ∀ k, ¬ ReachN s.graph (labelSet s.graph label) src k dst) ∧
    (∀ p, (s.ShortestPath src dst label).1 = some p →
      ReachN s.graph (labelSet s.graph label) src p.length dst ∧
      ∀ k, ReachN s.graph (labelSet s.graph label) src k dst → p.length ≤ k) := by
  have hwf := reachable_wf s hs
  rw [store_sp_eq_memImpl s hwf hn src dst label]
  obtain ⟨⟨hadjw, hlabw⟩, _⟩ := hwf
  have h := spImpl_mem_correct s.graph hadjw hlabw hn src dst label hsx hdx
  exact ⟨h.1, fun p hp => ⟨(h.2 p hp).1, (h.2 p hp).2.1⟩⟩

/-- Witness for C1 on the concrete two-vertex store: the query is not
NotFound (a labelled path `0 → 1` exists). -/
theorem shortestPath_correct_witness :
    ¬ (witnessStore.ShortestPath 0 1 "a").1 = none := by
  have h := (shortestPath_correct witnessStore
    ⟨.OPTIMIZED_PERFORMANCE, witnessOps, rfl⟩ (by decide) 0 1 "a"
    (by decide) (by decide)).1
  intro hnone
  have hall := h.mp hnone
  exact hall 1 (ReachN.step (ReachN.refl (by decide)) (by decide) (by decide))

/-! ## Claim C2: returned paths are well-formed -/

/-- C2: every path returned by `ShortestPath` on a reachable store satisfies
`length = |vertices| - 1`, starts at `src`, ends at `dst`, every consecutive
pair is a directed edge present in the graph, and every vertex on it holds the
queried label. -/
theorem shortestPath_path_wellformed (s : GraphStore) (hs : Reachable s)
    (hn : s.graph.neighbours.length < INF) (src dst : VertexId) (label : Label) :
    ∀ p, (s.ShortestPath src dst label).1 = some p →
      p.length = p.vertices.length - 1 ∧
      p.vertices.head? = some src ∧
      p.vertices.getLast? = some dst ∧
      List.Chain' (fun a b => b ∈ s.graph.neighbours.getD a []) p.vertices ∧
      ∀ v ∈ p.vertices, v ∈ labelSet s.graph label := by
  intro p hp
  have hwf := reachable_wf s hs
  rw [store_sp_eq_memImpl s hwf hn src dst label] at hp
  by_cases hv : ¬ vertexExists s.graph src ∨ ¬ vertexExists s.graph dst
  · rw [spImpl_fst_badvertex memOps s.graph _ src dst label hv] at hp
    cases hp
  · push_neg at hv
    obtain ⟨⟨hadjw, hlabw⟩, _⟩ := hwf
    have h := spImpl_mem_correct s.graph hadjw hlabw hn src dst label hv.1 hv.2
    obtain ⟨_, _, h3, h4, h5, h6, h7⟩ := h.2 p hp
    exact ⟨h3, h4, h5, h6, h7⟩

/-- Witness for C2: the concrete query returns `{1, [0, 1]}` and the theorem
applies to it. -/
theorem shortestPath_path_wellformed_witness :
    (Path.mk 1 [0, 1]).length = (Path.mk 1 [0, 1]).vertices.length - 1 ∧
    (Path.mk 1 [0, 1]).vertices.head? = some 0 ∧
    (Path.mk 1 [0, 1]).vertices.getLast? = some 1 ∧
    List.Chain' (fun a b => b ∈ witnessStore.graph.neighbours.getD a [])
      (Path.mk 1 [0, 1]).vertices ∧
    ∀ v ∈ (Path.mk 1 [0, 1]).vertices, v ∈ labelSet witnessStore.graph "a" :=
  shortestPath_path_wellformed witnessStore
    ⟨.OPTIMIZED_PERFORMANCE, witnessOps, rfl⟩ (by decide) 0 1 "a"
    ⟨1, [0, 1]⟩ (by decide)

/-! ## Claim C4: the two strategies are observably equivalent -/

theorem applyOp_graph (s : GraphStore) (op : StoreOp) :
    (applyOp s op).graph = gApplyOp s.graph op := by
  cases op with
  | createVertex => rfl
  | createEdge a b =>
      simp only [applyOp, GraphStore.CreateEdge, gApplyOp]
      split <;> rfl
  | addLabel v l =>
      simp only [applyOp, GraphStore.AddLabel, gApplyOp]
      split <;> rfl
  | removeLabel v l =>
      simp only [applyOp, GraphStore.RemoveLabel, gApplyOp]
      split <;> rfl

theorem applyOps_graph (ops : List StoreOp) :
    ∀ s : GraphStore, (applyOps s ops).graph = ops.foldl gApplyOp s.graph := by
  induction ops with
  | nil => intro s; rfl
  | cons op rest ih =>
      intro s
      have h : applyOps s (op :: rest) = applyOps (applyOp s op) rest := rfl
      rw [h, ih (applyOp s op), List.foldl_cons, applyOp_graph]

theorem applyOps_graph_strategy_indep (ops : List StoreOp) (a b : Strategy) :
    (applyOps (GraphStore.newWith a) ops).graph =
      (applyOps (GraphStore.newWith b) ops).graph := by
  rw [applyOps_graph, applyOps_graph]
  have ha : (GraphStore.newWith a).graph = ⟨[], []⟩ := by cases a <;> rfl
  have hb : (GraphStore.newWith b).graph = ⟨[], []⟩ := by cases b <;> rfl
  rw [ha, hb]

/-- C4: for every identical sequence of mutations followed by any
`ShortestPath` query, a store built with the memory-optimized strategy and a
store built with the performance-optimized strategy return the same result
(same presence, length and vertex sequence). -/
theorem strategies_equivalent (ops : List StoreOp) (src dst : VertexId) (label : Label)
    (hn : (applyOps (GraphStore.newWith .OPTIMIZED_MEMORY) ops).graph.neighbours.length
      < INF) :
    ((applyOps (GraphStore.newWith .OPTIMIZED_MEMORY) ops).ShortestPath
        src dst label).1 =
    ((applyOps (GraphStore.newWith .OPTIMIZED_PERFORMANCE) ops).ShortestPath
        src dst label).1 := by
  have hgeq := applyOps_graph_strategy_indep ops
    Strategy.OPTIMIZED_MEMORY Strategy.OPTIMIZED_PERFORMANCE
  have hwfM := reachable_wf _ (⟨Strategy.OPTIMIZED_MEMORY, ops, rfl⟩ :
    Reachable (applyOps (GraphStore.newWith .OPTIMIZED_MEMORY) ops))
  have hwfP := reachable_wf _ (⟨Strategy.OPTIMIZED_PERFORMANCE, ops, rfl⟩ :
    Reachable (applyOps (GraphStore.newWith .OPTIMIZED_PERFORMANCE) ops))
  rw [store_sp_eq_memImpl _ hwfM hn src dst label,
    store_sp_eq_memImpl _ hwfP (by rw [← hgeq]; exact hn) src dst label, hgeq]

/-- Witness for C4 at the concrete mutation sequence. -/
theorem strategies_equivalent_witness :
    ((applyOps (GraphStore.newWith .OPTIMIZED_MEMORY) witnessOps).ShortestPath
        0 1 "a").1 =
    ((applyOps (GraphStore.newWith .OPTIMIZED_PERFORMANCE) witnessOps).ShortestPath
        0 1 "a").1 :=
  strategies_equivalent witnessOps 0 1 "a" (by decide)

/-! ## Claim C9: each vertex is enqueued at most once, and the BFS terminates -/

theorem bfsLoop_nil_false {σ : Type} (ops : VSOps σ) (g : LabelledGraph) (valid : VSet)
    (dst : VertexId) (fuel : Nat) (st : σ) :
    bfsLoop ops g valid dst fuel st [] false = (st, [], false) := by
  cases fuel <;> rfl

theorem bfsLoop_add {σ : Type} (ops : VSOps σ) (g : LabelledGraph) (valid : VSet)
    (dst : VertexId) :
    ∀ (a b : Nat) (st : σ) (q : List VertexId) (r : Bool),
      bfsLoop ops g valid dst (a + b) st q r =
        bfsLoop ops g valid dst b (bfsLoop ops g valid dst a st q r).1
          (bfsLoop ops g valid dst a st q r).2.1
          (bfsLoop ops g valid dst a st q r).2.2 := by
  intro a
  induction a with
  | zero =>
      intro b st q r
      rw [Nat.zero_add]
      rfl
  | succ a' ih =>
      intro b st q r
      cases r with
      | true => simp only [bfsLoop_reached]
      | false =>
          cases q with
          | nil => simp only [bfsLoop_nil_false]
          | cons c rest =>
              have hadd : a' + 1 + b = a' + b + 1 := by omega
              rw [hadd, bfsLoop_succ_false_cons, bfsLoop_succ_false_cons]
              rcases hx : expandNeighbours ops valid dst c (g.neighbours.getD c [])
                  st rest with ⟨a1, b1, e1⟩
              simp only [hx]
              exact ih b a1 b1 e1

theorem bfsLoop_terminal {σ : Type} (ops : VSOps σ) (g : LabelledGraph) (valid : VSet)
    (dst : VertexId) (fuel : Nat) (st : σ) (q : List VertexId) (r : Bool)
    (h : r = true ∨ q = []) :
    bfsLoop ops g valid dst fuel st q r = (st, q, r) := by
  rcases h with h | h
  · subst h
    exact bfsLoop_reached ops g valid dst fuel st q
  · subst h
    cases r with
    | true => exact bfsLoop_reached ops g valid dst fuel st []
    | false => exact bfsLoop_nil_false ops g valid dst fuel st

/-- C9: during a single `ShortestPath` call on a reachable store, each vertex
is pushed onto the BFS queue at most once — the full trace of queue pushes
(the initial `src` push included) has no duplicates — and the BFS `while`
loop always terminates: within `n + 1` iterations (`n` = vertex count) the
loop reaches a configuration it never leaves, so running it with any extra
fuel yields the same result, for both traversal-state variants. -/
theorem bfs_enqueues_once (s : GraphStore) (hs : Reachable s)
    (hn : s.graph.neighbours.length < INF) (src dst : VertexId) (label : Label) :
    (s.ShortestPathTrace src dst label).Nodup ∧
    (∀ valid, lmapFind s.graph.label_to_vertices label = some valid →
      vertexExists s.graph src → vertexExists s.graph dst →
      src ∈ valid → dst ∈ valid →
      ∀ extra,
        (bfsLoop memOps s.graph valid dst (s.graph.neighbours.length + 1 + extra)
            (OptimizedMemoryVertexState.SetDistance ⟨[], []⟩ src 0) [src]
            (decide (src = dst)) =
          bfsLoop memOps s.graph valid dst (s.graph.neighbours.length + 1)
            (OptimizedMemoryVertexState.SetDistance ⟨[], []⟩ src 0) [src]
            (decide (src = dst))) ∧
        (bfsLoop perfOps s.graph valid dst (s.graph.neighbours.length + 1 + extra)
            (OptimizedPerformanceVertexState.SetDistance
              ⟨List.replicate s.graph.neighbours.length 0,
               List.replicate s.graph.neighbours.length INF, []⟩ src 0) [src]
            (decide (src = dst)) =
          bfsLoop perfOps s.graph valid dst (s.graph.neighbours.length + 1)
            (OptimizedPerformanceVertexState.SetDistance
              ⟨List.replicate s.graph.neighbours.length 0,
               List.replicate s.graph.neighbours.length INF, []⟩ src 0) [src]
            (decide (src = dst)))) := by
  have hwf := reachable_wf s hs
  obtain ⟨⟨hadjw, hlabw⟩, hclean⟩ := hwf
  constructor
  · obtain ⟨g, vs⟩ := s
    simp only [GraphStore.ShortestPathTrace]
    by_cases hv : ¬ vertexExists g src ∨ ¬ vertexExists g dst
    · rw [if_pos hv]
      exact List.nodup_nil
    · rw [if_neg hv]
      push_neg at hv
      obtain ⟨hsx, hdx⟩ := hv
      cases hfind : lmapFind g.label_to_vertices label with
      | none =>
          simp only [hfind]
          exact List.nodup_nil
      | some valid =>
          simp only [hfind]
          by_cases hmem : src ∉ valid ∨ dst ∉ valid
          · rw [if_pos hmem]
            exact List.nodup_nil
          · rw [if_neg hmem]
            push_neg at hmem
            obtain ⟨hsv, hdv⟩ := hmem
            have hvalidn := hlabw label valid hfind
            cases vs with
            | mem m =>
                have hm : m = ⟨[], []⟩ := hclean
                subst hm
                show (src :: (bfsLoopTr memOps g valid dst (g.neighbours.length + 1)
                  (OptimizedMemoryVertexState.SetDistance ⟨[], []⟩ src 0) [src]
                  (decide (src = dst))).2.2.2).Nodup
                by_cases hsd : src = dst
                · have hdec : decide (src = dst) = true := by simp [hsd]
                  rw [hdec, bfsLoopTr_reached]
                  simp
                · have hdec : decide (src = dst) = false := by simp [hsd]
                  rw [hdec]
                  rcases hTm : bfsLoopTr memOps g valid dst (g.neighbours.length + 1)
                      (OptimizedMemoryVertexState.SetDistance ⟨[], []⟩ src 0) [src] false
                    with ⟨m2, qm2, rm2, trm2⟩
                  simp only [hTm]
                  obtain ⟨hInv0, hdst0, hD0⟩ :=
                    init_inv g valid src dst hvalidn hsv (fun hh => hsd hh.symm)
                  have hfuel0 : ([src] : List VertexId).length +
                      (g.neighbours.length - Dcard g.neighbours.length
                        (mdist (OptimizedMemoryVertexState.SetDistance ⟨[], []⟩ src 0)))
                      ≤ g.neighbours.length + 1 := by
                    rw [hD0]
                    simp only [List.length_singleton]
                    omega
                  obtain ⟨hcore2, hsim2, hrt, hrf⟩ :=
                    bfsLoop_master g valid src dst hn hvalidn (g.neighbours.length + 1)
                      _ [src] 0 m2 qm2 rm2 trm2 hInv0 hdst0 hfuel0 hTm
                  have hsrcnot : src ∉ trm2 := by
                    intro hmem'
                    have hf := hsim2.fresh src hmem'
                    rw [mdist_init, if_pos rfl] at hf
                    exact absurd hf (Nat.ne_of_lt INF_pos)
                  exact List.nodup_cons.mpr ⟨hsrcnot, hsim2.nodup⟩
            | perf p =>
                have hp : p = ⟨List.replicate g.neighbours.length 0,
                    List.replicate g.neighbours.length INF, []⟩ := hclean
                subst hp
                show (src :: (bfsLoopTr perfOps g valid dst (g.neighbours.length + 1)
                  (OptimizedPerformanceVertexState.SetDistance
                    ⟨List.replicate g.neighbours.length 0,
                     List.replicate g.neighbours.length INF, []⟩ src 0) [src]
                  (decide (src = dst))).2.2.2).Nodup
                by_cases hsd : src = dst
                · have hdec : decide (src = dst) = true := by simp [hsd]
                  rw [hdec, bfsLoopTr_reached]
                  simp
                · have hdec : decide (src = dst) = false := by simp [hsd]
                  rw [hdec]
                  have hsrcn : src < g.neighbours.length := hsx
                  have hR0 : Rel g.neighbours.length
                      (OptimizedMemoryVertexState.SetDistance ⟨[], []⟩ src 0)
                      (OptimizedPerformanceVertexState.SetDistance
                        ⟨List.replicate g.neighbours.length 0,
                         List.replicate g.neighbours.length INF, []⟩ src 0) :=
                    rel_setDistance g.neighbours.length _ _
                      (rel_clean g.neighbours.length) src hsrcn 0
                  obtain ⟨hR2, hq2, hr2, ht2⟩ :=
                    bfsLoopTr_sim g valid dst hvalidn (g.neighbours.length + 1) _ _
                      [src] false hR0 (by
                        intro v hv
                        rw [List.mem_singleton] at hv
                        subst hv
                        exact hsrcn)
                  rcases hTm : bfsLoopTr memOps g valid dst (g.neighbours.length + 1)
                      (OptimizedMemoryVertexState.SetDistance ⟨[], []⟩ src 0) [src] false
                    with ⟨m2, qm2, rm2, trm2⟩
                  rcases hTp : bfsLoopTr perfOps g valid dst (g.neighbours.length + 1)
                      (OptimizedPerformanceVertexState.SetDistance
                        ⟨List.replicate g.neighbours.length 0,
                         List.replicate g.neighbours.length INF, []⟩ src 0) [src] false
                    with ⟨p2, qp2, rp2, trp2⟩
                  rw [hTm, hTp] at ht2
                  simp only at ht2
                  simp only [hTp, ht2]
                  obtain ⟨hInv0, hdst0, hD0⟩ :=
                    init_inv g valid src dst hvalidn hsv (fun hh => hsd hh.symm)
                  have hfuel0 : ([src] : List VertexId).length +
                      (g.neighbours.length - Dcard g.neighbours.length
                        (mdist (OptimizedMemoryVertexState.SetDistance ⟨[], []⟩ src 0)))
                      ≤ g.neighbours.length + 1 := by
                    rw [hD0]
                    simp only [List.length_singleton]
                    omega
                  obtain ⟨hcore2, hsim2, hrt, hrf⟩ :=
                    bfsLoop_master g valid src dst hn hvalidn (g.neighbours.length + 1)
                      _ [src] 0 m2 qm2 rm2 trm2 hInv0 hdst0 hfuel0 hTm
                  have hsrcnot : src ∉ trm2 := by
                    intro hmem'
                    have hf := hsim2.fresh src hmem'
                    rw [mdist_init, if_pos rfl] at hf
                    exact absurd hf (Nat.ne_of_lt INF_pos)
                  exact List.nodup_cons.mpr ⟨hsrcnot, hsim2.nodup⟩
  · intro valid hfind hsx hdx hsv hdv extra
    have hvalidn := hlabw label valid hfind
    by_cases hsd : src = dst
    · have hdec : decide (src = dst) = true := by simp [hsd]
      rw [hdec]
      constructor
      · rw [bfsLoop_reached, bfsLoop_reached]
      · rw [bfsLoop_reached, bfsLoop_reached]
    · have hdec : decide (src = dst) = false := by simp [hsd]
      rw [hdec]
      rcases hTm : bfsLoopTr memOps s.graph valid dst (s.graph.neighbours.length + 1)
          (OptimizedMemoryVertexState.SetDistance ⟨[], []⟩ src 0) [src] false
        with ⟨m2, qm2, rm2, trm2⟩
      obtain ⟨hInv0, hdst0, hD0⟩ :=
        init_inv s.graph valid src dst hvalidn hsv (fun hh => hsd hh.symm)
      have hfuel0 : ([src] : List VertexId).length +
          (s.graph.neighbours.length - Dcard s.graph.neighbours.length
            (mdist (OptimizedMemoryVertexState.SetDistance ⟨[], []⟩ src 0)))
          ≤ s.graph.neighbours.length + 1 := by
        rw [hD0]
        simp only [List.length_singleton]
        omega
      obtain ⟨hcore2, hsim2, hrt, hrf⟩ :=
        bfsLoop_master s.graph valid src dst hn hvalidn (s.graph.neighbours.length + 1)
          _ [src] 0 m2 qm2 rm2 trm2 hInv0 hdst0 hfuel0 hTm
      have hterm : rm2 = true ∨ qm2 = [] := by
        cases rm2 with
        | true => exact Or.inl rfl
        | false => exact Or.inr (hrf rfl).1
      have hplainm : bfsLoop memOps s.graph valid dst (s.graph.neighbours.length + 1)
          (OptimizedMemoryVertexState.SetDistance ⟨[], []⟩ src 0) [src] false
          = (m2, qm2, rm2) := by
        rw [bfsLoopTr_proj, hTm]
      constructor
      · rw [bfsLoop_add, hplainm]
        show bfsLoop memOps s.graph valid dst extra m2 qm2 rm2 = (m2, qm2, rm2)
        exact bfsLoop_terminal memOps s.graph valid dst extra m2 qm2 rm2 hterm
      · have hsrcn : src < s.graph.neighbours.length := hsx
        have hR0 : Rel s.graph.neighbours.length
            (OptimizedMemoryVertexState.SetDistance ⟨[], []⟩ src 0)
            (OptimizedPerformanceVertexState.SetDistance
              ⟨List.replicate s.graph.neighbours.length 0,
               List.replicate s.graph.neighbours.length INF, []⟩ src 0) :=
          rel_setDistance s.graph.neighbours.length _ _
            (rel_clean s.graph.neighbours.length) src hsrcn 0
        obtain ⟨hR2, hq2, hr2, ht2⟩ :=
          bfsLoopTr_sim s.graph valid dst hvalidn (s.graph.neighbours.length + 1) _ _
            [src] false hR0 (by
              intro v hv
              rw [List.mem_singleton] at hv
              subst hv
              exact hsrcn)
        rcases hTp : bfsLoopTr perfOps s.graph valid dst (s.graph.neighbours.length + 1)
            (OptimizedPerformanceVertexState.SetDistance
              ⟨List.replicate s.graph.neighbours.length 0,
               List.replicate s.graph.neighbours.length INF, []⟩ src 0) [src] false
          with ⟨p2, qp2, rp2, trp2⟩
        rw [hTm, hTp] at hq2 hr2
        simp only at hq2 hr2
        have htermp : rp2 = true ∨ qp2 = [] := by
          rw [hq2, hr2]
          exact hterm
        have hplainp : bfsLoop perfOps s.graph valid dst (s.graph.neighbours.length + 1)
            (OptimizedPerformanceVertexState.SetDistance
              ⟨List.replicate s.graph.neighbours.length 0,
               List.replicate s.graph.neighbours.length INF, []⟩ src 0) [src] false
            = (p2, qp2, rp2) := by
          rw [bfsLoopTr_proj, hTp]
        rw [bfsLoop_add, hplainp]
        show bfsLoop perfOps s.graph valid dst extra p2 qp2 rp2 = (p2, qp2, rp2)
        exact bfsLoop_terminal perfOps s.graph valid dst extra p2 qp2 rp2 htermp

/-- Witness for C9 at the concrete two-vertex store: the trace of queue pushes
of the query `ShortestPath 0 1 "a"` has no duplicates. -/
theorem bfs_enqueues_once_witness :
    (witnessStore.ShortestPathTrace 0 1 "a").Nodup :=
  (bfs_enqueues_once witnessStore ⟨.OPTIMIZED_PERFORMANCE, witnessOps, rfl⟩
    (by decide) 0 1 "a").1

end GraphStoreVerif
